import Mathlib

/-!
Verification of `digraphtools/topsort.py`.

Shallow embedding of the two functions of `digraphtools/topsort.py`:

* `partial_order_to_grid poset n` — builds the `(n+2) × (n+2)` boolean
  comparability grid.  The Python code `assert`s `i < j` for every pair and
  performs two list assignments `grid[i][j] = True; grid[j][i] = True`;
  assertion failure and out-of-range list assignment (Python `IndexError`)
  are both modelled as `Option` failure (`none`).
* `vr_topsort n m` — the Varol–Rotem (1981) enumeration of all linear
  extensions.  The Python generator's `while` loop is embedded as a
  fuel-indexed step function `vrRun`; `fuelFor n` is an explicit fuel
  amount proved sufficient for every grid produced by the builder.

Python list indexing/assignment is over non-negative indices here; all the
claims under scrutiny use 1-based indices `1 ≤ i < j ≤ n`, which never
exercise Python's negative-index wrap-around.
-/

namespace Digraphtools

/-- The comparability grid: a list of boolean rows. -/
abbrev Grid := List (List Bool)

/-- Python list assignment `g[a][b] = v`: fails (IndexError) when an index
is out of range, otherwise updates in place. -/
def setCell (g : Grid) (a b : ℕ) (v : Bool) : Option Grid :=
  if a < g.length ∧ b < (g.getD a []).length then
    some (g.set a ((g.getD a []).set b v))
  else
    none

/-- Python:
```
def partial_order_to_grid(poset, n):
    grid = [[False for j in xrange(n+1)]+[True] for i in xrange(n+2)]
    for i,j in poset:
        assert i<j
        grid[i][j] = True
        grid[j][i] = True
    return grid
```
The `assert` and any `IndexError` from the assignments are modelled as
`none`.  `buildStep` is the body of the `for` loop. -/
def buildStep (g : Grid) (ij : ℕ × ℕ) : Option Grid :=
  if ij.1 < ij.2 then do
    let g1 ← setCell g ij.1 ij.2 true
    setCell g1 ij.2 ij.1 true
  else none

def partial_order_to_grid (poset : List (ℕ × ℕ)) (n : ℕ) : Option Grid :=
  poset.foldlM buildStep (List.replicate (n+2) (List.replicate (n+1) false ++ [true]))

/-- Python expression `m[i][b]` (in-range in every reachable state). -/
def mLookup (m : Grid) (a b : ℕ) : Bool := (m.getD a []).getD b false

/-- Python slice assignment `p[i:k+1] = [p[k]] + p[i:k]`:
the value at position `k` moves to position `i` and the block
`p[i..k-1]` shifts right by one. -/
def rollRight (p : List ℕ) (i k : ℕ) : List ℕ :=
  p.take i ++ [p.getD k 0] ++ ((p.drop i).take (k - i)) ++ p.drop (k+1)

/-- Python `p[k], p[kk] = p[kk], p[k]` (right-hand sides read first). -/
def swapAdj (p : List ℕ) (k kk : ℕ) : List ℕ :=
  (p.set k (p.getD kk 0)).set kk (p.getD k 0)

/-- The mutable state of the Python generator `vr_topsort`:
the permutation array `p` (length `n+2`), the array `loc` (length `n+1`)
and the loop index `i`. -/
structure VR where
  p : List ℕ
  loc : List ℕ
  i : ℕ
deriving DecidableEq

/-- Python slice `p[1:n+1]`, the yielded window of the permutation array. -/
def window (n : ℕ) (p : List ℕ) : List ℕ := (p.drop 1).take n

/-- One iteration of the `while` loop of `vr_topsort`:
```
k = loc[i]
kk = k + 1
if m[i][p[kk]]:
    p[i:k+1] = [p[k]]+p[i:k]
    loc[i] = i
    i += 1
else:
    p[k],p[kk] = p[kk],p[k]
    loc[i] = kk
    i = 1
    yield p[1:n+1]
```
Returns the new state and the optional yielded list. -/
def vrStep (n : ℕ) (m : Grid) (s : VR) : VR × Option (List ℕ) :=
  let k := s.loc.getD s.i 0
  let kk := k + 1
  if mLookup m s.i (s.p.getD kk 0) then
    (⟨rollRight s.p s.i k, s.loc.set s.i s.i, s.i + 1⟩, none)
  else
    let p2 := swapAdj s.p k kk
    (⟨p2, s.loc.set s.i kk, 1⟩, some (window n p2))

/-- The `while i < n` loop, driven by explicit fuel.  Returns the list of
yielded values, the final state, and `true` iff the loop exited normally
(i.e. the guard failed) rather than running out of fuel. -/
def vrRun (n : ℕ) (m : Grid) : ℕ → VR → List (List ℕ) × VR × Bool
  | 0, s => ([], s, if s.i < n then false else true)
  | fuel+1, s =>
    if s.i < n then
      let t := vrStep n m s
      let r := vrRun n m fuel t.1
      ((match t.2 with
        | some y => y :: r.1
        | none => r.1), r.2)
    else ([], s, true)

/-- Initial state: Python `loc = range(n+1); p = range(n+2); i = 1`
(`k = 1` is dead until the loop body first assigns it). -/
def initState (n : ℕ) : VR := ⟨List.range (n+2), List.range (n+1), 1⟩

/-- Mixed-radix weight of digit position `j` (for `1 ≤ j ≤ n`):
`wgt n 1 = 1` and `wgt n (j+1) = (n - j + 1) * wgt n j`.
Used only to bound the length of the enumeration; `wgt n n = n!`. -/
def wgt (n : ℕ) : ℕ → ℕ
  | 0 => 1
  | 1 => 1
  | j+2 => (n - j) * wgt n (j+1)

/-- Fuel sufficient for the whole enumeration (proved below). -/
def fuelFor (n : ℕ) : ℕ := wgt n n * (n+1) + (n+1)

/-- Python generator `vr_topsort(n, m)`: yields `p[1:n+1]` once before the
loop and then runs the loop.  The fuel `fuelFor n` is proved sufficient for
every grid produced by `partial_order_to_grid` (claim C4). -/
def vr_topsort (n : ℕ) (m : Grid) : List (List ℕ) :=
  window n (initState n).p :: (vrRun n m (fuelFor n) (initState n)).1

/-- `true` iff the loop of `vr_topsort n m` terminates within `fuelFor n`
iterations (i.e. the guard `i < n` eventually fails). -/
def vr_done (n : ℕ) (m : Grid) : Bool := (vrRun n m (fuelFor n) (initState n)).2.2

/-- Final state of the loop of `vr_topsort n m` after `fuelFor n` iterations. -/
def vr_final (n : ℕ) (m : Grid) : VR := (vrRun n m (fuelFor n) (initState n)).2.1

/-- 0-based position of the first occurrence of `a` in a list
(`len l` when absent): the "position of value `a`" of the spec. -/
def idx (a : ℕ) : List ℕ → ℕ
  | [] => 0
  | b :: l => if b = a then 0 else idx a l + 1

/-- A list satisfies the partial order `po` when for every constraint pair
`(i,j)` the position of value `i` strictly precedes the position of `j`. -/
def ValidExt (po : List (ℕ × ℕ)) (l : List ℕ) : Prop :=
  ∀ pr ∈ po, idx pr.1 l < idx pr.2 l

/-- Constraint pairs are 1-based positions `1 ≤ i < j ≤ n`. -/
def PairsOK (n : ℕ) (po : List (ℕ × ℕ)) : Prop :=
  ∀ pr ∈ po, 1 ≤ pr.1 ∧ pr.1 < pr.2 ∧ pr.2 ≤ n

/-- "`x` may come anywhere before `y`": the pair `(y, x)` is not a
constraint.  A list is a valid extension of `po` iff it is pairwise
ordered by this relation (for permutations of `1..n`). -/
def Rpo (po : List (ℕ × ℕ)) (x y : ℕ) : Prop := (y, x) ∉ po

/-- The list of positions at which two lists disagree. -/
def diffPositions (l1 l2 : List ℕ) : List ℕ :=
  (List.range (max l1.length l2.length)).filter (fun j => l1.getD j 0 != l2.getD j 0)

/-- Two lists differ by exactly one pairwise position swap: they disagree
at exactly two positions and each holds the other's value there. -/
def isTransposedB (l1 l2 : List ℕ) : Bool :=
  match diffPositions l1 l2 with
  | [a, b] => l1.length == l2.length && l1.getD a 0 == l2.getD b 0
      && l1.getD b 0 == l2.getD a 0
  | _ => false

/-- Invariant of the builder's `for` loop after processing the pairs in
`seen`: the grid has `n+2` rows of `n+2` entries, the sentinel column
`n+1` is all `true`, and entry `(a, b)` with `b ≤ n` is `true` exactly
when `a` and `b` appear together in a processed pair. -/
structure GridOK (n : ℕ) (seen : List (ℕ × ℕ)) (g : Grid) : Prop where
  len : g.length = n + 2
  rows : ∀ row ∈ g, row.length = n + 2
  sentinel : ∀ a, a ≤ n + 1 → mLookup g a (n+1) = true
  content : ∀ a b, a ≤ n + 1 → b ≤ n →
    (mLookup g a b = true ↔ (a, b) ∈ seen ∨ (b, a) ∈ seen)

/-- The two facts about the grid that the enumerator relies on: the
sentinel column `n+1` is all `true`, and for `1 ≤ a, b ≤ n` the entry
`(a, b)` says whether `a` and `b` are related by a constraint pair. -/
structure GoodGrid (n : ℕ) (po : List (ℕ × ℕ)) (m : Grid) : Prop where
  sentinel : ∀ a, a ≤ n + 1 → mLookup m a (n+1) = true
  content : ∀ a b, 1 ≤ a → a ≤ n → 1 ≤ b → b ≤ n →
    (mLookup m a b = true ↔ (a, b) ∈ po ∨ (b, a) ∈ po)

/-- Position bookkeeping reconstructed from the permutation window alone:
`locOf w q` is `q` plus the index of `q` in the sublist of the values
`≥ q` of `w`.  The algorithm's `loc[q]` always equals `locOf` of the
current window (field `locc` of `Inv` below), so `loc` is a function of
the window. -/
def locOf (w : List ℕ) (q : ℕ) : ℕ :=
  idx q (w.filter (fun v => decide (q ≤ v))) + q

/-- The loop invariant of `vr_topsort` at the top of the `while` loop:
`p = [0] ++ window ++ [n+1]`, the window is a permutation of `1..n` that
respects every constraint pair, `1 ≤ i ≤ n`, the values `1..i-1` sit at
positions `1..i-1`, and each `loc[q]` (for `1 ≤ q ≤ n`) is at most `n`
and equals `locOf` of the window. -/
structure Inv (n : ℕ) (po : List (ℕ × ℕ)) (s : VR) : Prop where
  pshape : s.p = 0 :: window n s.p ++ [n+1]
  wlen : (window n s.p).length = n
  wperm : List.Perm (window n s.p) (List.range' 1 n)
  loclen : s.loc.length = n + 1
  ilb : 1 ≤ s.i
  iub : s.i ≤ n
  home : (window n s.p).take (s.i - 1) = List.range' 1 (s.i - 1)
  locb : ∀ q, 1 ≤ q → q ≤ n → s.loc.getD q 0 ≤ n
  locc : ∀ q, 1 ≤ q → q ≤ n → s.loc.getD q 0 = locOf (window n s.p) q
  ord : List.Pairwise (Rpo po) (window n s.p)

/-- Swap of the adjacent entries `j` and `j+1` of a list (0-based). -/
def swapW (w : List ℕ) (j : ℕ) : List ℕ :=
  (w.set j (w.getD (j+1) 0)).set (j+1) (w.getD j 0)

/-- How one yielded permutation arises from its predecessor: for some
`1 ≤ i ≤ k < n`, first the values `1..i-1` are moved to the front (the
relative order of the values `≥ i` is preserved — this is the combined
effect of the roll-right steps), then the adjacent entries at 0-based
positions `k-1` and `k` are swapped. -/
def StepRel (n : ℕ) (y1 y2 : List ℕ) : Prop :=
  ∃ i k, 1 ≤ i ∧ i ≤ k ∧ k < n ∧
    y2 = swapW (List.range' 1 (i-1) ++ y1.filter (fun v => decide (i ≤ v))) (k-1)

/-- Mixed-radix value of the digits `loc[j] - j` for `lo ≤ j ≤ n-1`. -/
def digitSum (n : ℕ) (loc : List ℕ) (lo : ℕ) : ℕ :=
  ((List.range' lo (n - lo)).map (fun j => (loc.getD j 0 - j) * wgt n j)).sum

/-- The loop's potential: `digitSum` from the current index plus the
weight of the current index.  It never decreases, and increases by
exactly 1 on every yield. -/
def pot (n : ℕ) (s : VR) : ℕ := digitSum n s.loc s.i + wgt n s.i

/-- Mixed-radix rank of a window, reconstructed from the window alone via
`locOf`.  At every yield, `pot = Vof (window) + 1`; since `Vof` strictly
increases from yield to yield, yields are pairwise distinct. -/
def Vof (n : ℕ) (y : List ℕ) : ℕ :=
  ((List.range' 1 (n-1)).map (fun j => (locOf y j - j) * wgt n j)).sum

/-- Termination measure of the `while` loop: decreases on every
iteration. -/
def meas (n : ℕ) (s : VR) : ℕ :=
  (wgt n n - pot n s) * (n + 1) + (n - s.i)

/-! Generic list lemmas -/

theorem getD_append_offset {α} (l1 l2 : List α) (j : ℕ) (d : α) :
    (l1 ++ l2).getD (l1.length + j) d = l2.getD j d := by
  induction l1 with
  | nil => simp
  | cons a t ih =>
      have h : (a :: t).length + j = (t.length + j) + 1 := by
        simp [List.length_cons]; omega
      rw [List.cons_append, h, List.getD_cons_succ, ih]

theorem getD_append_left {α} (l1 l2 : List α) (j : ℕ) (d : α)
    (h : j < l1.length) : (l1 ++ l2).getD j d = l1.getD j d := by
  induction l1 generalizing j with
  | nil => simp at h
  | cons a t ih =>
      cases j with
      | zero => simp
      | succ j' =>
          rw [List.cons_append, List.getD_cons_succ, List.getD_cons_succ]
          exact ih j' (by simp at h; omega)

theorem set_append_offset {α} (l1 l2 : List α) (j : ℕ) (v : α) :
    (l1 ++ l2).set (l1.length + j) v = l1 ++ l2.set j v := by
  induction l1 with
  | nil => simp
  | cons a t ih =>
      have h : (a :: t).length + j = (t.length + j) + 1 := by
        simp [List.length_cons]; omega
      rw [List.cons_append, h, List.set_cons_succ, ih, List.cons_append]

theorem take_append_offset {α} (l1 l2 : List α) (j : ℕ) :
    (l1 ++ l2).take (l1.length + j) = l1 ++ l2.take j := by
  induction l1 with
  | nil => simp
  | cons a t ih =>
      have h : (a :: t).length + j = (t.length + j) + 1 := by
        simp [List.length_cons]; omega
      rw [List.cons_append, h, List.take_succ_cons, ih, List.cons_append]

theorem drop_append_offset {α} (l1 l2 : List α) (j : ℕ) :
    (l1 ++ l2).drop (l1.length + j) = l2.drop j := by
  induction l1 with
  | nil => simp
  | cons a t ih =>
      have h : (a :: t).length + j = (t.length + j) + 1 := by
        simp [List.length_cons]; omega
      rw [List.cons_append, h, List.drop_succ_cons, ih]

/-! Lemmas about `idx` -/

theorem idx_cons (a b : ℕ) (l : List ℕ) :
    idx a (b :: l) = if b = a then 0 else idx a l + 1 := rfl

theorem idx_cons_self (a : ℕ) (l : List ℕ) : idx a (a :: l) = 0 := by
  simp [idx_cons]

theorem idx_cons_ne (a b : ℕ) (l : List ℕ) (h : b ≠ a) :
    idx a (b :: l) = idx a l + 1 := by
  simp [idx_cons, h]

theorem idx_append_left (a : ℕ) (l1 l2 : List ℕ) (h : a ∈ l1) :
    idx a (l1 ++ l2) = idx a l1 := by
  induction l1 with
  | nil => simp at h
  | cons b t ih =>
      by_cases hb : b = a
      · simp [idx_cons, hb]
      · rcases List.mem_cons.mp h with h' | h'
        · exact absurd h'.symm hb
        · simp [idx_cons, hb, ih h']

theorem idx_append_right (a : ℕ) (l1 l2 : List ℕ) (h : a ∉ l1) :
    idx a (l1 ++ l2) = l1.length + idx a l2 := by
  induction l1 with
  | nil => simp
  | cons b t ih =>
      have hb : b ≠ a := fun he => h (he ▸ List.mem_cons_self b t)
      have ht : a ∉ t := fun he => h (List.mem_cons_of_mem b he)
      simp only [List.cons_append, idx_cons, hb, if_false, ih ht,
        List.length_cons]
      omega

theorem idx_lt_length (a : ℕ) (l : List ℕ) (h : a ∈ l) :
    idx a l < l.length := by
  induction l with
  | nil => simp at h
  | cons b t ih =>
      by_cases hb : b = a
      · simp [idx_cons, hb]
      · rcases List.mem_cons.mp h with h' | h'
        · exact absurd h'.symm hb
        · simp only [idx_cons, hb, if_false, List.length_cons]
          exact Nat.succ_lt_succ (ih h')

theorem idx_notMem_take (a : ℕ) (l : List ℕ) :
    a ∉ l.take (idx a l) := by
  induction l with
  | nil => simp
  | cons b t ih =>
      by_cases hb : b = a
      · simp [idx_cons, hb]
      · simp only [idx_cons, hb, if_false, List.take_succ_cons]
        intro hmem
        rcases List.mem_cons.mp hmem with h' | h'
        · exact hb h'.symm
        · exact ih h'

theorem idx_decomp (a : ℕ) (l : List ℕ) (h : a ∈ l) :
    l = l.take (idx a l) ++ a :: l.drop (idx a l + 1) := by
  induction l with
  | nil => simp at h
  | cons b t ih =>
      by_cases hb : b = a
      · simp [idx_cons, hb]
      · rcases List.mem_cons.mp h with h' | h'
        · exact absurd h'.symm hb
        · simp only [idx_cons, hb, if_false, List.take_succ_cons,
            List.drop_succ_cons, List.cons_append, List.cons.injEq, true_and]
          exact ih h'

theorem idx_range' (a s n : ℕ) (hs : s ≤ a) (ha : a < s + n) :
    idx a (List.range' s n) = a - s := by
  induction n generalizing s with
  | zero => omega
  | succ n ih =>
      rw [List.range'_succ]
      by_cases hsa : s = a
      · simp [idx_cons, hsa]
      · rw [idx_cons_ne _ _ _ hsa, ih (s+1) (by omega) (by omega)]
        omega

theorem idx_take_eq (a : ℕ) (l1 l2 : List ℕ) (h : a ∈ l1) :
    idx a l1 = idx a (l1 ++ l2) := (idx_append_left a l1 l2 h).symm

/-- In a `Nodup` list that is pairwise ordered by `Rpo po`, every
constraint pair present in the list is respected positionally. -/
theorem pairwise_rpo_idx_lt (po : List (ℕ × ℕ)) (w : List ℕ) (a b : ℕ)
    (hp : List.Pairwise (Rpo po) w) (hab : (a, b) ∈ po) (hne : a ≠ b)
    (ha : a ∈ w) (hb : b ∈ w) : idx a w < idx b w := by
  induction w with
  | nil => simp at ha
  | cons c t ih =>
      rcases List.pairwise_cons.mp hp with ⟨hc, ht⟩
      by_cases hca : c = a
      · subst hca
        have hbt : b ∈ t := by
          rcases List.mem_cons.mp hb with h' | h'
          · exact absurd h' (fun he => hne he.symm)
          · exact h'
        rw [idx_cons_self, idx_cons_ne b c t hne]
        omega
      · by_cases hcb : c = b
        · subst hcb
          have hat : a ∈ t := by
            rcases List.mem_cons.mp ha with h' | h'
            · exact absurd h'.symm hca
            · exact h'
          exact absurd hab (hc a hat)
        · have hat : a ∈ t := by
            rcases List.mem_cons.mp ha with h' | h'
            · exact absurd h'.symm hca
            · exact h'
          have hbt : b ∈ t := by
            rcases List.mem_cons.mp hb with h' | h'
            · exact absurd h'.symm hcb
            · exact h'
          rw [idx_cons_ne a c t hca, idx_cons_ne b c t hcb]
          exact Nat.succ_lt_succ (ih ht hat hbt)

/-! More generic lemmas: `getD` after `set`, `getD` of `replicate` -/

theorem getD_set_self {α} (l : List α) (i : ℕ) (v : α) (d : α)
    (h : i < l.length) : (l.set i v).getD i d = v := by
  induction l generalizing i with
  | nil => simp at h
  | cons a t ih =>
      cases i with
      | zero => simp
      | succ j => simpa using ih j (by simp at h; omega)

theorem getD_set_ne {α} (l : List α) (i j : ℕ) (v : α) (d : α)
    (h : i ≠ j) : (l.set i v).getD j d = l.getD j d := by
  induction l generalizing i j with
  | nil => simp
  | cons a t ih =>
      cases i with
      | zero =>
          cases j with
          | zero => exact absurd rfl h
          | succ j' => simp
      | succ i' =>
          cases j with
          | zero => simp
          | succ j' => simpa using ih i' j' (fun he => h (by omega))

theorem getD_snoc_length {α} (l : List α) (x d : α) :
    (l ++ [x]).getD l.length d = x := by
  simpa using getD_append_offset l [x] 0 d

theorem getD_eq_getElem_of_lt {α} (l : List α) (i : ℕ) (d : α)
    (h : i < l.length) : l.getD i d = l[i] := by
  rw [List.getD_eq_getElem?_getD, List.getElem?_eq_getElem h]
  rfl

theorem getD_replicate {α} (k j : ℕ) (x d : α) :
    (List.replicate k x).getD j d = if j < k then x else d := by
  induction k generalizing j with
  | zero => simp
  | succ k' ih =>
      cases j with
      | zero => simp [List.replicate_succ]
      | succ j' =>
          rw [List.replicate_succ, List.getD_cons_succ, ih]
          simp only [Nat.succ_lt_succ_iff]

/-! Grid builder: shape and content invariants -/

theorem gridOK_init (n : ℕ) :
    GridOK n [] (List.replicate (n+2) (List.replicate (n+1) false ++ [true])) := by
  have hrow : ∀ a, a ≤ n + 1 →
      (List.replicate (n+2) (List.replicate (n+1) false ++ [true])).getD a []
        = List.replicate (n+1) false ++ [true] := by
    intro a ha
    rw [getD_replicate]
    simp only [if_pos (by omega : a < n + 2)]
  refine ⟨by simp, ?_, ?_, ?_⟩
  · intro row hrow'
    rcases List.eq_of_mem_replicate hrow' with rfl
    simp
  · intro a ha
    rw [mLookup, hrow a ha]
    simpa using getD_snoc_length (List.replicate (n+1) false) true false
  · intro a b ha hb
    rw [mLookup, hrow a ha, getD_append_left _ _ _ _ (by simp; omega),
      getD_replicate]
    simp

theorem setCell_ok (n : ℕ) (g : Grid) (a b : ℕ) (v : Bool)
    (hlen : g.length = n+2) (hrows : ∀ row ∈ g, row.length = n+2)
    (ha : a ≤ n+1) (hb : b ≤ n+1) :
    ∃ g', setCell g a b v = some g' ∧ g'.length = n+2 ∧
      (∀ row ∈ g', row.length = n+2) ∧
      ∀ x y, mLookup g' x y = if x = a ∧ y = b then v else mLookup g x y := by
  have hrowlen : (g.getD a []).length = n + 2 := by
    have hlt : a < g.length := by omega
    rw [getD_eq_getElem_of_lt g a [] hlt]
    exact hrows _ (List.getElem_mem hlt)
  refine ⟨g.set a ((g.getD a []).set b v), ?_, by simpa using hlen, ?_, ?_⟩
  · rw [setCell, if_pos ⟨by omega, by omega⟩]
  · intro row hmem
    rcases List.mem_or_eq_of_mem_set hmem with h | h
    · exact hrows row h
    · rw [h]; simpa using hrowlen
  · intro x y
    by_cases hx : x = a
    · subst hx
      rw [mLookup, getD_set_self _ _ _ _ (by omega)]
      by_cases hy : y = b
      · subst hy
        rw [getD_set_self _ _ _ _ (by omega)]
        simp
      · rw [getD_set_ne _ _ _ _ _ (fun he => hy he.symm), mLookup]
        simp [hy]
    · rw [mLookup, getD_set_ne _ _ _ _ _ (fun he => hx he.symm), ← mLookup]
      simp [hx]

theorem buildStep_ok (n : ℕ) (seen : List (ℕ × ℕ)) (g : Grid) (i j : ℕ)
    (hok : GridOK n seen g) (hi : 1 ≤ i) (hij : i < j) (hj : j ≤ n) :
    ∃ g', buildStep g (i, j) = some g' ∧ GridOK n (seen ++ [(i, j)]) g' := by
  obtain ⟨g1, hs1, hlen1, hrows1, hget1⟩ :=
    setCell_ok n g i j true hok.len hok.rows (by omega) (by omega)
  obtain ⟨g2, hs2, hlen2, hrows2, hget2⟩ :=
    setCell_ok n g1 j i true hlen1 hrows1 (by omega) (by omega)
  refine ⟨g2, ?_, hlen2, hrows2, ?_, ?_⟩
  · rw [buildStep, if_pos (by exact hij : (i, j).1 < (i, j).2)]
    simp only [bind, hs1, Option.bind, hs2]
  · intro a ha
    rw [hget2, hget1]
    have h1 : ¬(a = j ∧ n + 1 = i) := by rintro ⟨_, h⟩; omega
    have h2 : ¬(a = i ∧ n + 1 = j) := by rintro ⟨_, h⟩; omega
    rw [if_neg h1, if_neg h2]
    exact hok.sentinel a ha
  · intro a b ha hb
    rw [hget2, hget1]
    have hc := hok.content a b ha hb
    by_cases h1 : a = j ∧ b = i
    · rw [if_pos h1]
      constructor
      · intro
        right
        rw [h1.1, h1.2]
        simp
      · intro; rfl
    · rw [if_neg h1]
      by_cases h2 : a = i ∧ b = j
      · rw [if_pos h2]
        constructor
        · intro
          left
          rw [h2.1, h2.2]
          simp
        · intro; rfl
      · rw [if_neg h2, hc]
        constructor
        · rintro (h | h)
          · exact Or.inl (by simp [h])
          · exact Or.inr (by simp [h])
        · rintro (h | h)
          · rcases List.mem_append.mp h with h' | h'
            · exact Or.inl h'
            · exfalso
              rcases List.mem_singleton.mp h' with he
              exact h2 ⟨congrArg Prod.fst he, congrArg Prod.snd he⟩
          · rcases List.mem_append.mp h with h' | h'
            · exact Or.inr h'
            · exfalso
              rcases List.mem_singleton.mp h' with he
              exact h1 ⟨congrArg Prod.snd he, congrArg Prod.fst he⟩

theorem build_fold_ok (n : ℕ) :
    ∀ (rest seen : List (ℕ × ℕ)) (g : Grid), GridOK n seen g →
    (∀ pr ∈ rest, 1 ≤ pr.1 ∧ pr.1 < pr.2 ∧ pr.2 ≤ n) →
    ∃ g', rest.foldlM buildStep g = some g' ∧ GridOK n (seen ++ rest) g' := by
  intro rest
  induction rest with
  | nil =>
      intro seen g hok _
      exact ⟨g, by simp [List.foldlM_nil], by simpa using hok⟩
  | cons pr rest ih =>
      intro seen g hok hre
      obtain ⟨h1, h2, h3⟩ := hre pr (List.mem_cons_self pr rest)
      obtain ⟨g', hstep, hok'⟩ := buildStep_ok n seen g pr.1 pr.2 hok h1 h2 h3
      obtain ⟨g'', hfold, hok''⟩ := ih (seen ++ [pr]) g' hok'
        (fun q hq => hre q (List.mem_cons_of_mem pr hq))
      refine ⟨g'', ?_, by simpa using hok''⟩
      rw [List.foldlM_cons]
      have hpr : (pr.1, pr.2) = pr := rfl
      rw [← hpr] at hstep ⊢
      simp only [bind, hstep, Option.bind, hfold]

/-- If any pair of the input violates `i < j`, the construction fails
(Python: the `assert` raises, or an earlier assignment raises IndexError
— either way no grid is returned). -/
theorem build_none_of_bad :
    ∀ (rest : List (ℕ × ℕ)) (g : Grid), (∃ pr ∈ rest, pr.2 ≤ pr.1) →
    rest.foldlM buildStep g = none := by
  intro rest
  induction rest with
  | nil =>
      rintro g ⟨pr, hm, _⟩
      simp at hm
  | cons p rest ih =>
      rintro g ⟨pr, hm, hbad⟩
      rw [List.foldlM_cons]
      rcases List.mem_cons.mp hm with rfl | hm'
      · have hnone : buildStep g pr = none := by
          rw [buildStep, if_neg (by omega)]
        rw [hnone]
        rfl
      · cases hstep : buildStep g p with
        | none => rfl
        | some g1 => exact ih g1 ⟨pr, hm', hbad⟩

/-- If every pair satisfies `i < j` and `j ≤ n+1` (all indices within the
grid), the construction succeeds. -/
theorem build_some_of_inrange (n : ℕ) :
    ∀ (rest : List (ℕ × ℕ)) (g : Grid), g.length = n + 2 →
    (∀ row ∈ g, row.length = n + 2) →
    (∀ pr ∈ rest, pr.1 < pr.2 ∧ pr.2 ≤ n + 1) →
    ∃ g', rest.foldlM buildStep g = some g' := by
  intro rest
  induction rest with
  | nil =>
      intro g _ _ _
      exact ⟨g, by simp [List.foldlM_nil]⟩
  | cons p rest ih =>
      intro g hlen hrows hre
      obtain ⟨h1, h2⟩ := hre p (List.mem_cons_self p rest)
      obtain ⟨g1, hs1, hlen1, hrows1, _⟩ :=
        setCell_ok n g p.1 p.2 true hlen hrows (by omega) (by omega)
      obtain ⟨g2, hs2, hlen2, hrows2, _⟩ :=
        setCell_ok n g1 p.2 p.1 true hlen1 hrows1 (by omega) (by omega)
      obtain ⟨g', hfold⟩ := ih g2 hlen2 hrows2
        (fun q hq => hre q (List.mem_cons_of_mem p hq))
      refine ⟨g', ?_⟩
      rw [List.foldlM_cons]
      have hstep : buildStep g p = some g2 := by
        rw [buildStep, if_pos h1]
        simp only [bind, hs1, Option.bind, hs2]
      rw [hstep]
      exact hfold

/-- Main postcondition of `partial_order_to_grid` for in-range pairs. -/
theorem partial_order_to_grid_ok (n : ℕ) (po : List (ℕ × ℕ))
    (hpo : PairsOK n po) :
    ∃ g, partial_order_to_grid po n = some g ∧ GridOK n po g := by
  obtain ⟨g, hf, hok⟩ := build_fold_ok n po [] _ (gridOK_init n) hpo
  exact ⟨g, hf, by simpa using hok⟩

theorem GridOK.toGoodGrid {n : ℕ} {po : List (ℕ × ℕ)} {g : Grid}
    (h : GridOK n po g) : GoodGrid n po g :=
  ⟨h.sentinel, fun a b _ ha _ hb => h.content a b (by omega) hb⟩

/-! Weights -/

theorem wgt_one (n : ℕ) : wgt n 1 = 1 := rfl

theorem wgt_succ (n j : ℕ) (h1 : 1 ≤ j) (h2 : j ≤ n) :
    wgt n (j+1) = (n - j + 1) * wgt n j := by
  obtain ⟨j', rfl⟩ : ∃ j', j = j' + 1 := ⟨j - 1, by omega⟩
  show (n - j') * wgt n (j' + 1) = (n - (j' + 1) + 1) * wgt n (j' + 1)
  congr 1
  omega

theorem wgt_pos (n j : ℕ) (h : j ≤ n) : 1 ≤ wgt n j := by
  induction j with
  | zero => exact Nat.le_refl 1
  | succ j' ih =>
      cases j' with
      | zero => exact Nat.le_refl 1
      | succ j'' =>
          have hj : 1 ≤ wgt n (j''+1) := ih (by omega)
          rw [wgt_succ n (j''+1) (by omega) (by omega)]
          have : 1 ≤ n - (j''+1) + 1 := by omega
          calc 1 = 1 * 1 := rfl
            _ ≤ (n - (j''+1) + 1) * wgt n (j''+1) := Nat.mul_le_mul this hj

theorem wgt_mono (n i j : ℕ) (hij : i ≤ j) (hj : j ≤ n) :
    wgt n i ≤ wgt n j := by
  induction j with
  | zero => simpa [Nat.le_zero.mp hij]
  | succ j' ih =>
      rcases Nat.lt_or_ge i (j'+1) with h | h
      · have hle : wgt n i ≤ wgt n j' := ih (by omega) (by omega)
        cases j' with
        | zero => interval_cases i <;> simp [wgt]
        | succ j'' =>
            rw [wgt_succ n (j''+1) (by omega) (by omega)]
            calc wgt n i ≤ wgt n (j''+1) := hle
              _ = 1 * wgt n (j''+1) := (Nat.one_mul _).symm
              _ ≤ (n - (j''+1) + 1) * wgt n (j''+1) :=
                  Nat.mul_le_mul_right _ (by omega)
      · have : i = j' + 1 := by omega
        rw [this]

/-! Filters of ranges and `locOf` -/

theorem filter_ge_range' (q m : ℕ) (hq : 1 ≤ q) :
    (List.range' 1 m).filter (fun v => decide (q ≤ v)) =
      List.range' q (m + 1 - q) := by
  induction m with
  | zero =>
      have : (1 : ℕ) - q = 0 := by omega
      simp [this]
  | succ m' ih =>
      rw [List.range'_1_concat, List.filter_append, ih]
      by_cases h : q ≤ 1 + m'
      · rw [List.filter_cons_of_pos (by simpa using h), List.filter_nil]
        have h1 : m' + 1 + 1 - q = (m' + 1 - q) + 1 := by omega
        rw [h1, List.range'_1_concat]
        congr 2
        omega
      · rw [List.filter_cons_of_neg (by simpa using h), List.filter_nil]
        have h1 : m' + 1 + 1 - q = 0 := by omega
        have h2 : m' + 1 - q = 0 := by omega
        rw [h1, h2, List.append_nil]

theorem filter_ge_of_all {q : ℕ} {l : List ℕ} (h : ∀ x ∈ l, q ≤ x) :
    l.filter (fun v => decide (q ≤ v)) = l :=
  List.filter_eq_self.mpr (fun a ha => by simpa using h a ha)

theorem filter_ge_nil {q : ℕ} {l : List ℕ} (h : ∀ x ∈ l, x < q) :
    l.filter (fun v => decide (q ≤ v)) = [] :=
  List.filter_eq_nil_iff.mpr (fun a ha => by simpa using Nat.not_le.mpr (h a ha))

theorem filter_ge_filter_ge (a b : ℕ) (h : b ≤ a) (y : List ℕ) :
    (y.filter (fun v => decide (b ≤ v))).filter (fun v => decide (a ≤ v)) =
      y.filter (fun v => decide (a ≤ v)) := by
  rw [List.filter_filter]
  apply List.filter_congr
  intro x _
  by_cases hx : a ≤ x
  · have hbx : b ≤ x := le_trans h hx
    simp [hx, hbx]
  · simp [hx]

/-- If the window starts with the block `1..c`, then `locOf` at any
`q ≤ c` is just `q`. -/
theorem locOf_home (c q : ℕ) (R : List ℕ) (hq : 1 ≤ q) (hqc : q ≤ c) :
    locOf (List.range' 1 c ++ R) q = q := by
  rw [locOf, List.filter_append, filter_ge_range' q c hq]
  have h1 : c + 1 - q = (c - q) + 1 := by omega
  rw [h1, List.range'_succ, List.cons_append, idx_cons_self]
  omega

/-! Window and array-surgery lemmas -/

theorem window_shape (n : ℕ) (w : List ℕ) (hw : w.length = n) (z : ℕ) :
    window n (0 :: w ++ [z]) = w := by
  rw [window]
  show ((0 :: (w ++ [z])).drop 1).take n = w
  rw [List.drop_succ_cons, List.drop_zero]
  exact List.take_left' hw

theorem getD_cons_append_offset {α} (x : α) (l1 l2 : List α) (d : α) :
    (x :: (l1 ++ l2)).getD (l1.length + 1) d = l2.getD 0 d := by
  have h := getD_append_offset (x :: l1) l2 0 d
  simpa [List.length_cons] using h

theorem rollRight_decomp (X Y Z : List ℕ) (z : ℕ) (p : List ℕ)
    (hp : p = 0 :: (X ++ (Y ++ z :: Z))) :
    rollRight p (X.length + 1) (X.length + Y.length + 1) =
      0 :: (X ++ (z :: Y ++ Z)) := by
  subst hp
  rw [rollRight]
  have htake : (0 :: (X ++ (Y ++ z :: Z))).take (X.length + 1) = 0 :: X := by
    show ((0 :: X) ++ (Y ++ z :: Z)).take (X.length + 1) = 0 :: X
    exact List.take_left' (by simp)
  have hget : (0 :: (X ++ (Y ++ z :: Z))).getD (X.length + Y.length + 1) 0 = z := by
    have h0 : (0 :: (X ++ (Y ++ z :: Z))) = ((0 :: X) ++ Y) ++ z :: Z := by simp
    have h1 : X.length + Y.length + 1 = ((0 :: X) ++ Y).length + 0 := by
      simp [List.length_append, List.length_cons]
    rw [h0, h1, getD_append_offset]
    rfl
  have hdrop1 : (0 :: (X ++ (Y ++ z :: Z))).drop (X.length + 1) = Y ++ z :: Z := by
    show ((0 :: X) ++ (Y ++ z :: Z)).drop (X.length + 1) = Y ++ z :: Z
    exact List.drop_left' (by simp)
  have hdrop2 : (0 :: (X ++ (Y ++ z :: Z))).drop (X.length + Y.length + 1 + 1) = Z := by
    have h0 : (0 :: (X ++ (Y ++ z :: Z))) = ((0 :: X) ++ Y ++ [z]) ++ Z := by simp
    rw [h0]
    exact List.drop_left' (by simp [List.length_append, List.length_cons] <;> omega)
  have hmid : (X.length + Y.length + 1) - (X.length + 1) = Y.length := by omega
  rw [htake, hget, hdrop1, hdrop2, hmid, List.take_left]
  simp

theorem swapAdj_decomp (X Z : List ℕ) (a b : ℕ) (p : List ℕ)
    (hp : p = 0 :: (X ++ a :: b :: Z)) :
    swapAdj p (X.length + 1) (X.length + 2) = 0 :: (X ++ b :: a :: Z) := by
  subst hp
  rw [swapAdj]
  have hgetb : (0 :: (X ++ a :: b :: Z)).getD (X.length + 2) 0 = b := by
    have h0 : (0 :: (X ++ a :: b :: Z)) = ((0 :: X) ++ [a]) ++ b :: Z := by simp
    have h1 : X.length + 2 = ((0 :: X) ++ [a]).length + 0 := by simp <;> omega
    rw [h0, h1, getD_append_offset]
    rfl
  have hgeta : (0 :: (X ++ a :: b :: Z)).getD (X.length + 1) 0 = a := by
    have h := getD_cons_append_offset 0 X (a :: b :: Z) 0
    simpa using h
  have hset1 : (0 :: (X ++ a :: b :: Z)).set (X.length + 1) b =
      0 :: (X ++ b :: b :: Z) := by
    have h0 : (0 :: (X ++ a :: b :: Z)) = (0 :: X) ++ a :: b :: Z := by simp
    have h1 : X.length + 1 = (0 :: X).length + 0 := by simp
    rw [h0, h1, set_append_offset]
    simp
  have hset2 : (0 :: (X ++ b :: b :: Z)).set (X.length + 2) a =
      0 :: (X ++ b :: a :: Z) := by
    have h0 : (0 :: (X ++ b :: b :: Z)) = (0 :: X) ++ b :: b :: Z := by simp
    have h1 : X.length + 2 = (0 :: X).length + 1 := by simp
    rw [h0, h1, set_append_offset]
    simp
  rw [hgetb, hgeta, hset1, hset2]

theorem swapW_decomp (X Z : List ℕ) (a b : ℕ) (w : List ℕ)
    (hw : w = X ++ a :: b :: Z) :
    swapW w X.length = X ++ b :: a :: Z := by
  subst hw
  rw [swapW]
  have hgetb : (X ++ a :: b :: Z).getD (X.length + 1) 0 = b := by
    have h0 : (X ++ a :: b :: Z) = (X ++ [a]) ++ b :: Z := by simp
    have h1 : X.length + 1 = (X ++ [a]).length + 0 := by simp
    rw [h0, h1, getD_append_offset]
    rfl
  have hgeta : (X ++ a :: b :: Z).getD X.length 0 = a := by
    have h1 : X.length = X.length + 0 := rfl
    rw [h1, getD_append_offset]
    rfl
  have hset1 : (X ++ a :: b :: Z).set X.length b = X ++ b :: b :: Z := by
    have h1 : X.length = X.length + 0 := rfl
    rw [h1, set_append_offset]
    simp
  have hset2 : (X ++ b :: b :: Z).set (X.length + 1) a = X ++ b :: a :: Z := by
    rw [set_append_offset]
    simp
  rw [hgetb, hgeta, hset1, hset2]

/-! Shape of an invariant state -/

/-- Every invariant state decomposes as
`window = [1..i-1] ++ T1 ++ i :: T2` where `|T1| = loc[i] - i` and all the
values in `T1` and `T2` lie in `(i, n]`. -/
theorem inv_shape (n : ℕ) (po : List (ℕ × ℕ)) (s : VR) (hs : Inv n po s) :
    ∃ T1 T2 : List ℕ,
      window n s.p = List.range' 1 (s.i - 1) ++ (T1 ++ s.i :: T2) ∧
      T1.length = s.loc.getD s.i 0 - s.i ∧
      s.i ≤ s.loc.getD s.i 0 ∧
      (∀ x ∈ T1, s.i < x ∧ x ≤ n) ∧
      (∀ x ∈ T2, s.i < x ∧ x ≤ n) ∧
      T2.length + s.loc.getD s.i 0 = n := by
  have hw : window n s.p =
      List.range' 1 (s.i - 1) ++ (window n s.p).drop (s.i - 1) := by
    conv_lhs => rw [← List.take_append_drop (s.i - 1) (window n s.p)]
    rw [hs.home]
  have hsplit : List.range' 1 (s.i - 1) ++ List.range' s.i (n - s.i + 1) =
      List.range' 1 n := by
    have h := List.range'_append_1 1 (s.i - 1) (n - s.i + 1)
    have h1 : 1 + (s.i - 1) = s.i := by have := hs.ilb; omega
    have h2 : n - s.i + 1 + (s.i - 1) = n := by
      have := hs.ilb; have := hs.iub; omega
    rw [h1, h2] at h
    exact h
  have htail_perm : List.Perm ((window n s.p).drop (s.i - 1))
      (List.range' s.i (n - s.i + 1)) := by
    apply (List.perm_append_left_iff (List.range' 1 (s.i - 1))).mp
    rw [← hw, hsplit]
    exact hs.wperm
  have htail_mem : ∀ x ∈ (window n s.p).drop (s.i - 1), s.i ≤ x ∧ x ≤ n := by
    intro x hx
    have hx' := htail_perm.mem_iff.mp hx
    rw [List.mem_range'_1] at hx'
    have := hs.ilb; have := hs.iub
    omega
  have hfil : (window n s.p).filter (fun v => decide (s.i ≤ v)) =
      (window n s.p).drop (s.i - 1) := by
    conv_lhs => rw [hw]
    rw [List.filter_append, filter_ge_nil, filter_ge_of_all, List.nil_append]
    · intro x hx
      exact (htail_mem x hx).1
    · intro x hx
      rw [List.mem_range'_1] at hx
      have := hs.ilb
      omega
  have hitail : s.i ∈ (window n s.p).drop (s.i - 1) := by
    apply htail_perm.mem_iff.mpr
    rw [List.mem_range'_1]
    omega
  have hk : s.loc.getD s.i 0 = idx s.i ((window n s.p).drop (s.i - 1)) + s.i := by
    have h := hs.locc s.i hs.ilb hs.iub
    rw [locOf, hfil] at h
    exact h
  have htlen : ((window n s.p).drop (s.i - 1)).length = n - s.i + 1 := by
    rw [List.length_drop, hs.wlen]
    have := hs.ilb; have := hs.iub
    omega
  have hidxlt := idx_lt_length s.i _ hitail
  have hnodup : ((window n s.p).drop (s.i - 1)).Nodup :=
    htail_perm.nodup_iff.mpr (List.nodup_range' s.i (n - s.i + 1))
  obtain hdec := idx_decomp s.i _ hitail
  refine ⟨((window n s.p).drop (s.i - 1)).take
      (idx s.i ((window n s.p).drop (s.i - 1))),
    ((window n s.p).drop (s.i - 1)).drop
      (idx s.i ((window n s.p).drop (s.i - 1)) + 1), ?_, ?_, ?_, ?_, ?_, ?_⟩
  · conv_lhs => rw [hw]
    rw [← hdec]
  · rw [List.length_take]
    omega
  · omega
  · intro x hx
    have hmem := htail_mem x (List.mem_of_mem_take hx)
    have hne : x ≠ s.i := by
      intro he
      exact idx_notMem_take s.i _ (he ▸ hx)
    exact ⟨by omega, hmem.2⟩
  · intro x hx
    have hmem := htail_mem x (List.mem_of_mem_drop hx)
    have hne : x ≠ s.i := by
      intro he
      subst he
      have h2 : ((window n s.p).drop (s.i - 1)).Nodup := hnodup
      rw [hdec] at h2
      have h3 := (List.nodup_cons.mp h2.of_append_right).1
      exact h3 hx
    exact ⟨by omega, hmem.2⟩
  · rw [List.length_drop]
    have hub := hs.locb s.i hs.ilb hs.iub
    omega

/-- Below the cursor, `loc[q] = q`. -/
theorem loc_lt_eq (n : ℕ) (po : List (ℕ × ℕ)) (s : VR) (hs : Inv n po s)
    (q : ℕ) (h1 : 1 ≤ q) (h2 : q < s.i) : s.loc.getD q 0 = q := by
  have hqn : q ≤ n := by have := hs.iub; omega
  rw [hs.locc q h1 hqn]
  have hw : window n s.p =
      List.range' 1 (s.i - 1) ++ (window n s.p).drop (s.i - 1) := by
    conv_lhs => rw [← List.take_append_drop (s.i - 1) (window n s.p)]
    rw [hs.home]
  rw [hw]
  exact locOf_home (s.i - 1) q _ h1 (by omega)

/-! The initial state -/

theorem window_initState (n : ℕ) :
    window n (initState n).p = List.range' 1 n := by
  show window n (List.range (n+2)) = List.range' 1 n
  rw [List.range_eq_range']
  have h : List.range' 0 (n+2) = 0 :: List.range' 1 (n+1) := List.range'_succ 0 (n+1) 1
  rw [h, window, List.drop_succ_cons, List.drop_zero]
  have h2 : List.range' 1 (n+1) = List.range' 1 n ++ [1 + n] := List.range'_1_concat 1 n
  rw [h2]
  exact List.take_left' (List.length_range' 1 1 n)

theorem pshape_initState (n : ℕ) :
    (initState n).p = 0 :: window n (initState n).p ++ [n+1] := by
  rw [window_initState]
  show List.range (n+2) = 0 :: List.range' 1 n ++ [n+1]
  rw [List.range_eq_range']
  have h : List.range' 0 (n+2) = 0 :: List.range' 1 (n+1) := List.range'_succ 0 (n+1) 1
  rw [h]
  have h2 : List.range' 1 (n+1) = List.range' 1 n ++ [1 + n] := List.range'_1_concat 1 n
  rw [h2, Nat.add_comm 1 n]
  rfl

theorem getD_range (k j d : ℕ) (h : j < k) : (List.range k).getD j d = j := by
  rw [getD_eq_getElem_of_lt _ _ _ (by simpa using h)]
  simp

theorem locOf_range' (n q : ℕ) (h1 : 1 ≤ q) (h2 : q ≤ n) :
    locOf (List.range' 1 n) q = q := by
  have h := locOf_home n q [] h1 h2
  rwa [List.append_nil] at h

theorem inv_init (n : ℕ) (po : List (ℕ × ℕ)) (hn : 1 ≤ n)
    (hpo : PairsOK n po) : Inv n po (initState n) := by
  have hwin := window_initState n
  refine ⟨pshape_initState n, ?_, ?_, ?_, ?_, ?_, ?_, ?_, ?_, ?_⟩
  · rw [hwin]; exact List.length_range' 1 1 n
  · rw [hwin]
  · simp [initState]
  · exact Nat.le_refl 1
  · exact hn
  · simp [hwin, initState]
  · intro q hq1 hq2
    show (List.range (n+1)).getD q 0 ≤ n
    rw [getD_range (n+1) q 0 (by omega)]
    exact hq2
  · intro q hq1 hq2
    show (List.range (n+1)).getD q 0 = locOf (window n (initState n).p) q
    rw [getD_range (n+1) q 0 (by omega), hwin, locOf_range' n q hq1 hq2]
  · rw [hwin]
    apply List.Pairwise.imp ?_ (List.pairwise_lt_range' 1 n)
    intro a b hab hmem
    have := hpo (b, a) hmem
    omega

/-! Arithmetic of `digitSum`, `pot`, `Vof` -/

theorem digitSum_expand (n : ℕ) (loc : List ℕ) (lo : ℕ) (h : lo < n) :
    digitSum n loc lo =
      (loc.getD lo 0 - lo) * wgt n lo + digitSum n loc (lo+1) := by
  rw [digitSum, digitSum]
  have h1 : n - lo = (n - (lo+1)) + 1 := by omega
  rw [h1, List.range'_succ]
  simp

theorem digitSum_congr (n : ℕ) (loc1 loc2 : List ℕ) (lo : ℕ)
    (h : ∀ j, lo ≤ j → j < n → loc1.getD j 0 = loc2.getD j 0) :
    digitSum n loc1 lo = digitSum n loc2 lo := by
  rw [digitSum, digitSum]
  congr 1
  apply List.map_congr_left
  intro j hj
  rw [List.mem_range'_1] at hj
  rw [h j hj.1 (by omega)]

theorem digitSum_set_lt (n : ℕ) (loc : List ℕ) (i x lo : ℕ) (h : i < lo) :
    digitSum n (loc.set i x) lo = digitSum n loc lo := by
  apply digitSum_congr
  intro j hj _
  exact getD_set_ne loc i j x 0 (by omega)

theorem digitSum_le (n : ℕ) (loc : List ℕ)
    (hb : ∀ q, 1 ≤ q → q ≤ n → loc.getD q 0 ≤ n) :
    ∀ (c lo : ℕ), lo + c = n → 1 ≤ lo →
      digitSum n loc lo + wgt n lo ≤ wgt n n := by
  intro c
  induction c with
  | zero =>
      intro lo hlo _
      have h : lo = n := by omega
      subst h
      simp [digitSum]
  | succ c ih =>
      intro lo hlo hlo1
      have hlt : lo < n := by omega
      rw [digitSum_expand n loc lo hlt]
      have hsucc : wgt n (lo+1) = (n - lo + 1) * wgt n lo :=
        wgt_succ n lo hlo1 (by omega)
      have h1 : (loc.getD lo 0 - lo) * wgt n lo + wgt n lo ≤ wgt n (lo+1) := by
        rw [hsucc]
        have hd : loc.getD lo 0 - lo + 1 ≤ n - lo + 1 := by
          have := hb lo hlo1 (by omega)
          omega
        calc (loc.getD lo 0 - lo) * wgt n lo + wgt n lo
            = (loc.getD lo 0 - lo + 1) * wgt n lo := by ring
          _ ≤ (n - lo + 1) * wgt n lo := Nat.mul_le_mul_right _ hd
      have h2 := ih (lo+1) (by omega) (by omega)
      calc (loc.getD lo 0 - lo) * wgt n lo + digitSum n loc (lo+1) + wgt n lo
          = ((loc.getD lo 0 - lo) * wgt n lo + wgt n lo) + digitSum n loc (lo+1) := by
            ring
        _ ≤ wgt n (lo+1) + digitSum n loc (lo+1) := Nat.add_le_add_right h1 _
        _ = digitSum n loc (lo+1) + wgt n (lo+1) := by ring
        _ ≤ wgt n n := h2

theorem pot_le (n : ℕ) (po : List (ℕ × ℕ)) (s : VR) (hs : Inv n po s) :
    pot n s ≤ wgt n n :=
  digitSum_le n s.loc hs.locb (n - s.i) s.i (by have := hs.iub; omega) hs.ilb

/-- Under the cursor invariant (all digits below `i` are zero), the full
digit sum equals the digit sum from `i` on. -/
theorem digitSum_one_eq (n : ℕ) (loc : List ℕ) (i : ℕ) (h1 : 1 ≤ i)
    (hi : i ≤ n) (hz : ∀ j, 1 ≤ j → j < i → loc.getD j 0 = j) :
    digitSum n loc 1 = digitSum n loc i := by
  rw [digitSum, digitSum]
  have hsplit : List.range' 1 (n-1) = List.range' 1 (i-1) ++ List.range' i (n-i) := by
    have h := List.range'_append_1 1 (i-1) (n-i)
    rw [show 1 + (i-1) = i by omega, show n - i + (i-1) = n-1 by omega] at h
    exact h.symm
  rw [hsplit, List.map_append, List.sum_append]
  have hz' : ((List.range' 1 (i-1)).map
      (fun j => (loc.getD j 0 - j) * wgt n j)).sum = 0 := by
    apply List.sum_eq_zero
    intro x hx
    rcases List.mem_map.mp hx with ⟨j, hj, rfl⟩
    rw [List.mem_range'_1] at hj
    rw [hz j hj.1 (by omega)]
    simp
  rw [hz', Nat.zero_add]

/-- Under the invariant, the digit sum from 1 is a function of the window
alone. -/
theorem digitSum_one_Vof (n : ℕ) (po : List (ℕ × ℕ)) (s : VR)
    (hs : Inv n po s) : digitSum n s.loc 1 = Vof n (window n s.p) := by
  rw [digitSum, Vof]
  congr 1
  apply List.map_congr_left
  intro j hj
  rw [List.mem_range'_1] at hj
  rw [hs.locc j hj.1 (by omega)]

/-! The rotation branch -/

theorem rotation_step (n : ℕ) (po : List (ℕ × ℕ)) (m : Grid) (s : VR)
    (hpo : PairsOK n po) (hs : Inv n po s) (hlt : s.i < n)
    (hcond : mLookup m s.i (s.p.getD (s.loc.getD s.i 0 + 1) 0) = true) :
    ∃ s1, vrStep n m s = (s1, none) ∧ Inv n po s1 ∧ s1.i = s.i + 1 ∧
      pot n s ≤ pot n s1 ∧
      (∀ y : List ℕ,
        window n s.p = List.range' 1 (s.i - 1) ++
          y.filter (fun v => decide (s.i ≤ v)) →
        window n s1.p = List.range' 1 s.i ++
          y.filter (fun v => decide (s.i + 1 ≤ v))) := by
  obtain ⟨T1, T2, hdec, hT1len, hik, hT1, hT2, hT2len⟩ := inv_shape n po s hs
  have hi1 := hs.ilb
  have hin := hs.iub
  have hkn := hs.locb s.i hs.ilb hs.iub
  have hAlen : (List.range' 1 (s.i - 1)).length = s.i - 1 :=
    List.length_range' 1 1 (s.i - 1)
  have hAmem : ∀ x ∈ List.range' 1 (s.i - 1), x < s.i := by
    intro x hx
    rw [List.mem_range'_1] at hx
    omega
  have hp : s.p = 0 :: (List.range' 1 (s.i - 1) ++
      (T1 ++ s.i :: (T2 ++ [n+1]))) := by
    rw [hs.pshape]
    conv_lhs => rw [hdec]
    simp
  have hroll0 := rollRight_decomp (List.range' 1 (s.i - 1)) T1
    (T2 ++ [n+1]) s.i s.p hp
  have hAi : (List.range' 1 (s.i - 1)).length + 1 = s.i := by
    rw [hAlen]; omega
  have hAk : (List.range' 1 (s.i - 1)).length + T1.length + 1 =
      s.loc.getD s.i 0 := by
    rw [hAlen, hT1len]; omega
  rw [hAi, hAk] at hroll0
  have hshape1 : (0 : ℕ) :: (List.range' 1 (s.i - 1) ++
        (s.i :: T1 ++ (T2 ++ [n+1]))) =
      0 :: (List.range' 1 (s.i - 1) ++ s.i :: (T1 ++ T2)) ++ [n+1] := by
    simp
  have hroll : rollRight s.p s.i (s.loc.getD s.i 0) =
      0 :: (List.range' 1 (s.i - 1) ++ s.i :: (T1 ++ T2)) ++ [n+1] := by
    rw [hroll0, ← hshape1]
  have hwlen0 := hs.wlen
  rw [hdec] at hwlen0
  have hlen1 : (List.range' 1 (s.i - 1) ++ s.i :: (T1 ++ T2)).length = n := by
    simp only [List.length_append, List.length_cons, hAlen] at hwlen0 ⊢
    omega
  have hwin1 : window n (rollRight s.p s.i (s.loc.getD s.i 0)) =
      List.range' 1 (s.i - 1) ++ s.i :: (T1 ++ T2) := by
    rw [hroll]
    exact window_shape n _ hlen1 (n+1)
  have hstep : vrStep n m s =
      (⟨rollRight s.p s.i (s.loc.getD s.i 0), s.loc.set s.i s.i, s.i + 1⟩,
        none) := by
    rw [vrStep]
    simp only [hcond, if_true]
  refine ⟨⟨rollRight s.p s.i (s.loc.getD s.i 0), s.loc.set s.i s.i, s.i + 1⟩,
    hstep, ?_, rfl, ?_, ?_⟩
  · -- the invariant for the successor state
    refine ⟨?_, ?_, ?_, ?_, ?_, ?_, ?_, ?_, ?_, ?_⟩
    · show rollRight s.p s.i (s.loc.getD s.i 0) =
        0 :: window n (rollRight s.p s.i (s.loc.getD s.i 0)) ++ [n+1]
      rw [hwin1, hroll]
    · show (window n (rollRight s.p s.i (s.loc.getD s.i 0))).length = n
      rw [hwin1]
      exact hlen1
    · show List.Perm (window n (rollRight s.p s.i (s.loc.getD s.i 0)))
        (List.range' 1 n)
      rw [hwin1]
      have hmid : List.Perm (s.i :: (T1 ++ T2)) (T1 ++ s.i :: T2) :=
        List.perm_middle.symm
      have h1 : List.Perm (List.range' 1 (s.i - 1) ++ s.i :: (T1 ++ T2))
          (List.range' 1 (s.i - 1) ++ (T1 ++ s.i :: T2)) :=
        hmid.append_left _
      apply h1.trans
      rw [← hdec]
      exact hs.wperm
    · show (s.loc.set s.i s.i).length = n + 1
      rw [List.length_set]
      exact hs.loclen
    · show 1 ≤ s.i + 1
      omega
    · show s.i + 1 ≤ n
      omega
    · show (window n (rollRight s.p s.i (s.loc.getD s.i 0))).take (s.i + 1 - 1)
        = List.range' 1 (s.i + 1 - 1)
      rw [hwin1]
      have h1 : s.i + 1 - 1 = (List.range' 1 (s.i - 1)).length + 1 := by
        rw [hAlen]; omega
      rw [h1, take_append_offset]
      show List.range' 1 (s.i - 1) ++ [s.i] = List.range' 1 ((List.range' 1 (s.i - 1)).length + 1)
      rw [hAlen]
      have h2 : List.range' 1 (s.i - 1 + 1) =
          List.range' 1 (s.i - 1) ++ [1 + (s.i - 1)] := List.range'_1_concat 1 (s.i - 1)
      rw [h2]
      congr 2
      omega
    · intro q hq1 hqn
      by_cases hqi : q = s.i
      · show (s.loc.set s.i s.i).getD q 0 ≤ n
        rw [hqi, getD_set_self _ _ _ _ (by rw [hs.loclen]; omega)]
        omega
      · show (s.loc.set s.i s.i).getD q 0 ≤ n
        rw [getD_set_ne _ _ _ _ _ (fun he => hqi he.symm)]
        exact hs.locb q hq1 hqn
    · intro q hq1 hqn
      rw [hwin1]
      by_cases hqi : q = s.i
      · show (s.loc.set s.i s.i).getD q 0 = locOf _ q
        rw [hqi, getD_set_self _ _ _ _ (by rw [hs.loclen]; omega)]
        rw [locOf, List.filter_append, filter_ge_nil hAmem, List.nil_append,
          List.filter_cons_of_pos (by simp), idx_cons_self]
        omega
      · rcases Nat.lt_or_ge q s.i with hqlt | hqge
        · show (s.loc.set s.i s.i).getD q 0 = locOf _ q
          rw [getD_set_ne _ _ _ _ _ (fun he => hqi he.symm)]
          rw [loc_lt_eq n po s hs q hq1 hqlt]
          exact (locOf_home (s.i - 1) q _ hq1 (by omega)).symm
        · have hqgt : s.i < q := by omega
          have hnotq : ¬ ((fun v => decide (q ≤ v)) s.i = true) := by
            simp
            omega
          have hcons1 : (s.i :: T2).filter (fun v => decide (q ≤ v)) =
              T2.filter (fun v => decide (q ≤ v)) :=
            List.filter_cons_of_neg hnotq
          have hcons2 : (s.i :: (T1 ++ T2)).filter (fun v => decide (q ≤ v)) =
              (T1 ++ T2).filter (fun v => decide (q ≤ v)) :=
            List.filter_cons_of_neg hnotq
          have hfe : (List.range' 1 (s.i - 1) ++
                (T1 ++ s.i :: T2)).filter (fun v => decide (q ≤ v)) =
              (List.range' 1 (s.i - 1) ++
                s.i :: (T1 ++ T2)).filter (fun v => decide (q ≤ v)) := by
            simp only [List.filter_append, hcons1, hcons2]
          show (s.loc.set s.i s.i).getD q 0 = locOf _ q
          rw [getD_set_ne _ _ _ _ _ (fun he => hqi he.symm)]
          rw [hs.locc q hq1 hqn, hdec, locOf, locOf, hfe]
    · show List.Pairwise (Rpo po)
        (window n (rollRight s.p s.i (s.loc.getD s.i 0)))
      rw [hwin1]
      have hord := hs.ord
      rw [hdec] at hord
      rw [List.pairwise_append] at hord ⊢
      obtain ⟨hordA, hordM, hordX⟩ := hord
      rw [List.pairwise_append] at hordM
      obtain ⟨hordT1, hordIT2, hordX2⟩ := hordM
      rw [List.pairwise_cons] at hordIT2
      obtain ⟨hordI, hordT2⟩ := hordIT2
      refine ⟨hordA, ?_, ?_⟩
      · rw [List.pairwise_cons]
        constructor
        · intro y hy
          rcases List.mem_append.mp hy with hy1 | hy2
          · intro hmem
            have := hpo (y, s.i) hmem
            have := (hT1 y hy1).1
            omega
          · exact hordI y hy2
        · rw [List.pairwise_append]
          exact ⟨hordT1, hordT2,
            fun x hx y hy => hordX2 x hx y (List.mem_cons_of_mem _ hy)⟩
      · intro a ha b hb
        apply hordX a ha
        rcases List.mem_cons.mp hb with rfl | hb'
        · exact List.mem_append.mpr (Or.inr (List.mem_cons_self _ _))
        · rcases List.mem_append.mp hb' with hb1 | hb2
          · exact List.mem_append.mpr (Or.inl hb1)
          · exact List.mem_append.mpr (Or.inr (List.mem_cons_of_mem _ hb2))
  · -- the potential does not decrease
    show pot n s ≤ pot n
      (⟨rollRight s.p s.i (s.loc.getD s.i 0), s.loc.set s.i s.i, s.i + 1⟩ : VR)
    rw [pot, pot]
    show digitSum n s.loc s.i + wgt n s.i ≤
      digitSum n (s.loc.set s.i s.i) (s.i + 1) + wgt n (s.i + 1)
    rw [digitSum_set_lt n s.loc s.i s.i (s.i + 1) (by omega),
      digitSum_expand n s.loc s.i hlt,
      wgt_succ n s.i hi1 hin]
    have h1 : (s.loc.getD s.i 0 - s.i) * wgt n s.i + wgt n s.i ≤
        (n - s.i + 1) * wgt n s.i := by
      calc (s.loc.getD s.i 0 - s.i) * wgt n s.i + wgt n s.i
          = (s.loc.getD s.i 0 - s.i + 1) * wgt n s.i := by ring
        _ ≤ (n - s.i + 1) * wgt n s.i :=
            Nat.mul_le_mul_right _ (by omega)
    calc (s.loc.getD s.i 0 - s.i) * wgt n s.i + digitSum n s.loc (s.i + 1)
          + wgt n s.i
        = ((s.loc.getD s.i 0 - s.i) * wgt n s.i + wgt n s.i)
          + digitSum n s.loc (s.i + 1) := by ring
      _ ≤ (n - s.i + 1) * wgt n s.i + digitSum n s.loc (s.i + 1) :=
          Nat.add_le_add_right h1 _
      _ = digitSum n s.loc (s.i + 1) + (n - s.i + 1) * wgt n s.i := by ring
  · -- transfer of the renormalisation form
    intro y hy
    show window n (rollRight s.p s.i (s.loc.getD s.i 0)) =
      List.range' 1 s.i ++ y.filter (fun v => decide (s.i + 1 ≤ v))
    rw [hwin1]
    rw [hdec] at hy
    have hfil : y.filter (fun v => decide (s.i ≤ v)) = T1 ++ s.i :: T2 :=
      (List.append_cancel_left hy).symm
    have hff := filter_ge_filter_ge (s.i + 1) s.i (by omega) y
    rw [hfil] at hff
    have hT1f : T1.filter (fun v => decide (s.i + 1 ≤ v)) = T1 :=
      filter_ge_of_all (fun x hx => by have := (hT1 x hx).1; omega)
    have hT2f : T2.filter (fun v => decide (s.i + 1 ≤ v)) = T2 :=
      filter_ge_of_all (fun x hx => by have := (hT2 x hx).1; omega)
    rw [List.filter_append, hT1f, List.filter_cons_of_neg (by simp), hT2f]
      at hff
    rw [← hff]
    have hAi2 : List.range' 1 s.i = List.range' 1 (s.i - 1) ++ [s.i] := by
      have h2 := List.range'_1_concat 1 (s.i - 1)
      rw [show s.i - 1 + 1 = s.i by omega, show 1 + (s.i - 1) = s.i by omega]
        at h2
      exact h2
    rw [hAi2]
    simp

/-! The swap branch -/

theorem pairwise_swap_mid {R : ℕ → ℕ → Prop} (X Z : List ℕ) (a b : ℕ)
    (h : List.Pairwise R (X ++ a :: b :: Z)) (hba : R b a) :
    List.Pairwise R (X ++ b :: a :: Z) := by
  induction X with
  | nil =>
      rw [List.nil_append] at h ⊢
      rw [List.pairwise_cons] at h
      obtain ⟨ha, h2⟩ := h
      rw [List.pairwise_cons] at h2
      obtain ⟨hb, h3⟩ := h2
      rw [List.pairwise_cons]
      refine ⟨?_, ?_⟩
      · intro y hy
        rcases List.mem_cons.mp hy with rfl | hy'
        · exact hba
        · exact hb y hy'
      · rw [List.pairwise_cons]
        exact ⟨fun y hy => ha y (List.mem_cons_of_mem _ hy), h3⟩
  | cons x X ih =>
      rw [List.cons_append] at h ⊢
      rw [List.pairwise_cons] at h ⊢
      obtain ⟨hx, h2⟩ := h
      refine ⟨?_, ih h2⟩
      intro y hy
      apply hx
      rcases List.mem_append.mp hy with hy1 | hy2
      · exact List.mem_append.mpr (Or.inl hy1)
      · refine List.mem_append.mpr (Or.inr ?_)
        rcases List.mem_cons.mp hy2 with rfl | hy3
        · exact List.mem_cons_of_mem _ (List.mem_cons_self _ _)
        · rcases List.mem_cons.mp hy3 with rfl | hy4
          · exact List.mem_cons_self _ _
          · exact List.mem_cons_of_mem _ (List.mem_cons_of_mem _ hy4)

theorem swap_step (n : ℕ) (po : List (ℕ × ℕ)) (m : Grid) (s : VR)
    (hg : GoodGrid n po m) (hpo : PairsOK n po) (hs : Inv n po s)
    (hlt : s.i < n)
    (hcond : mLookup m s.i (s.p.getD (s.loc.getD s.i 0 + 1) 0) = false) :
    ∃ s1 y0, vrStep n m s = (s1, some y0) ∧ Inv n po s1 ∧ s1.i = 1 ∧
      y0 = window n s1.p ∧
      pot n s1 = pot n s + 1 ∧
      pot n s1 = Vof n y0 + 1 ∧
      y0 = swapW (window n s.p) (s.loc.getD s.i 0 - 1) ∧
      s.i ≤ s.loc.getD s.i 0 ∧ s.loc.getD s.i 0 < n := by
  obtain ⟨T1, T2, hdec, hT1len, hik, hT1, hT2, hT2len⟩ := inv_shape n po s hs
  have hi1 := hs.ilb
  have hin := hs.iub
  have hkn := hs.locb s.i hs.ilb hs.iub
  have hAlen : (List.range' 1 (s.i - 1)).length = s.i - 1 :=
    List.length_range' 1 1 (s.i - 1)
  have hAmem : ∀ x ∈ List.range' 1 (s.i - 1), x < s.i := by
    intro x hx
    rw [List.mem_range'_1] at hx
    omega
  have hp : s.p = 0 :: ((List.range' 1 (s.i - 1) ++ T1 ++ [s.i]) ++
      (T2 ++ [n+1])) := by
    rw [hs.pshape]
    conv_lhs => rw [hdec]
    simp
  have hPrelen : (List.range' 1 (s.i - 1) ++ T1 ++ [s.i]).length =
      s.loc.getD s.i 0 := by
    simp only [List.length_append, List.length_cons, List.length_nil, hAlen,
      hT1len]
    omega
  have hread0 : s.p.getD (s.loc.getD s.i 0 + 1) 0 = (T2 ++ [n+1]).getD 0 0 := by
    rw [hp, ← hPrelen]
    exact getD_cons_append_offset 0 _ _ 0
  -- T2 cannot be empty: the sentinel would force the rotation branch.
  cases hT2e : T2 with
  | nil =>
      exfalso
      rw [hT2e] at hread0
      have hsent := hg.sentinel s.i (by omega)
      rw [hread0] at hcond
      simp only [List.nil_append, List.getD_cons_zero] at hcond
      rw [hcond] at hsent
      exact Bool.false_ne_true hsent
  | cons v T2' =>
  have hvmem : s.i < v ∧ v ≤ n := hT2 v (by rw [hT2e]; exact List.mem_cons_self _ _)
  have hT2'mem : ∀ x ∈ T2', s.i < x ∧ x ≤ n := by
    intro x hx
    exact hT2 x (by rw [hT2e]; exact List.mem_cons_of_mem _ hx)
  have hklt : s.loc.getD s.i 0 < n := by
    have : T2.length = T2'.length + 1 := by rw [hT2e]; simp
    omega
  have hread : s.p.getD (s.loc.getD s.i 0 + 1) 0 = v := by
    rw [hread0, hT2e]
    rfl
  have hlook : mLookup m s.i v = false := by
    rw [← hread]
    exact hcond
  have hnotpo : (s.i, v) ∉ po ∧ (v, s.i) ∉ po := by
    have hcontent := hg.content s.i v hi1 (by omega) (by omega) hvmem.2
    constructor
    · intro hmem
      have := hcontent.mpr (Or.inl hmem)
      rw [hlook] at this
      exact Bool.false_ne_true this
    · intro hmem
      have := hcontent.mpr (Or.inr hmem)
      rw [hlook] at this
      exact Bool.false_ne_true this
  -- the swapped array
  have hpX : s.p = 0 :: ((List.range' 1 (s.i - 1) ++ T1) ++
      s.i :: v :: (T2' ++ [n+1])) := by
    rw [hp, hT2e]
    simp
  have hXlen : (List.range' 1 (s.i - 1) ++ T1).length = s.loc.getD s.i 0 - 1 := by
    simp only [List.length_append, hAlen, hT1len]
    omega
  have hswap0 := swapAdj_decomp (List.range' 1 (s.i - 1) ++ T1)
    (T2' ++ [n+1]) s.i v s.p hpX
  have hXk1 : (List.range' 1 (s.i - 1) ++ T1).length + 1 = s.loc.getD s.i 0 := by
    rw [hXlen]; omega
  have hXk2 : (List.range' 1 (s.i - 1) ++ T1).length + 2 = s.loc.getD s.i 0 + 1 := by
    rw [hXlen]; omega
  rw [hXk1, hXk2] at hswap0
  have hshape2 : (0 : ℕ) :: ((List.range' 1 (s.i - 1) ++ T1) ++
        v :: s.i :: (T2' ++ [n+1])) =
      0 :: (List.range' 1 (s.i - 1) ++ (T1 ++ v :: s.i :: T2')) ++ [n+1] := by
    simp
  have hswap : swapAdj s.p (s.loc.getD s.i 0) (s.loc.getD s.i 0 + 1) =
      0 :: (List.range' 1 (s.i - 1) ++ (T1 ++ v :: s.i :: T2')) ++ [n+1] := by
    rw [hswap0, ← hshape2]
  have hwlen0 := hs.wlen
  rw [hdec, hT2e] at hwlen0
  have hlen2 : (List.range' 1 (s.i - 1) ++ (T1 ++ v :: s.i :: T2')).length = n := by
    simp only [List.length_append, List.length_cons, hAlen] at hwlen0 ⊢
    omega
  have hwin2 : window n (swapAdj s.p (s.loc.getD s.i 0) (s.loc.getD s.i 0 + 1)) =
      List.range' 1 (s.i - 1) ++ (T1 ++ v :: s.i :: T2') := by
    rw [hswap]
    exact window_shape n _ hlen2 (n+1)
  have hstep : vrStep n m s =
      (⟨swapAdj s.p (s.loc.getD s.i 0) (s.loc.getD s.i 0 + 1),
        s.loc.set s.i (s.loc.getD s.i 0 + 1), 1⟩,
       some (window n (swapAdj s.p (s.loc.getD s.i 0) (s.loc.getD s.i 0 + 1)))) := by
    rw [vrStep]
    simp only [hcond, Bool.false_eq_true, if_false]
  have hT1ne : s.i ∉ T1 := by
    intro hmem
    have := (hT1 s.i hmem).1
    omega
  -- the new invariant
  have hinv1 : Inv n po ⟨swapAdj s.p (s.loc.getD s.i 0) (s.loc.getD s.i 0 + 1),
      s.loc.set s.i (s.loc.getD s.i 0 + 1), 1⟩ := by
    refine ⟨?_, ?_, ?_, ?_, ?_, ?_, ?_, ?_, ?_, ?_⟩
    · show swapAdj s.p (s.loc.getD s.i 0) (s.loc.getD s.i 0 + 1) =
        0 :: window n (swapAdj s.p (s.loc.getD s.i 0) (s.loc.getD s.i 0 + 1))
          ++ [n+1]
      rw [hwin2, hswap]
    · show (window n (swapAdj s.p (s.loc.getD s.i 0)
        (s.loc.getD s.i 0 + 1))).length = n
      rw [hwin2]
      exact hlen2
    · show List.Perm (window n (swapAdj s.p (s.loc.getD s.i 0)
        (s.loc.getD s.i 0 + 1))) (List.range' 1 n)
      rw [hwin2]
      have hmid : List.Perm (v :: s.i :: T2') (s.i :: v :: T2') :=
        List.Perm.swap s.i v T2'
      have h1 : List.Perm (List.range' 1 (s.i - 1) ++ (T1 ++ v :: s.i :: T2'))
          (List.range' 1 (s.i - 1) ++ (T1 ++ s.i :: v :: T2')) :=
        ((hmid.append_left T1).append_left _)
      apply h1.trans
      rw [← hT2e]
      rw [← hdec]
      exact hs.wperm
    · show (s.loc.set s.i (s.loc.getD s.i 0 + 1)).length = n + 1
      rw [List.length_set]
      exact hs.loclen
    · exact Nat.le_refl 1
    · show (1 : ℕ) ≤ n
      omega
    · show (window n (swapAdj s.p (s.loc.getD s.i 0)
        (s.loc.getD s.i 0 + 1))).take (1 - 1) = List.range' 1 (1 - 1)
      simp
    · intro q hq1 hqn
      by_cases hqi : q = s.i
      · show (s.loc.set s.i (s.loc.getD s.i 0 + 1)).getD q 0 ≤ n
        rw [hqi, getD_set_self _ _ _ _ (by rw [hs.loclen]; omega)]
        omega
      · show (s.loc.set s.i (s.loc.getD s.i 0 + 1)).getD q 0 ≤ n
        rw [getD_set_ne _ _ _ _ _ (fun he => hqi he.symm)]
        exact hs.locb q hq1 hqn
    · intro q hq1 hqn
      rw [hwin2]
      by_cases hqi : q = s.i
      · show (s.loc.set s.i (s.loc.getD s.i 0 + 1)).getD q 0 = locOf _ q
        rw [hqi, getD_set_self _ _ _ _ (by rw [hs.loclen]; omega)]
        rw [locOf, List.filter_append, filter_ge_nil hAmem, List.nil_append,
          List.filter_append,
          filter_ge_of_all (fun x hx => le_of_lt (hT1 x hx).1),
          List.filter_cons_of_pos (by simp; omega),
          List.filter_cons_of_pos (by simp),
          idx_append_right _ _ _ hT1ne,
          idx_cons_ne _ _ _ (by have := hvmem.1; omega),
          idx_cons_self]
        rw [hT1len]
        omega
      · rcases Nat.lt_or_ge q s.i with hqlt | hqge
        · show (s.loc.set s.i (s.loc.getD s.i 0 + 1)).getD q 0 = locOf _ q
          rw [getD_set_ne _ _ _ _ _ (fun he => hqi he.symm)]
          rw [loc_lt_eq n po s hs q hq1 hqlt]
          exact (locOf_home (s.i - 1) q _ hq1 (by omega)).symm
        · have hqgt : s.i < q := by omega
          have hnotq : ¬ ((fun x => decide (q ≤ x)) s.i = true) := by
            simp
            omega
          have hcons1 : (s.i :: v :: T2').filter (fun x => decide (q ≤ x)) =
              (v :: T2').filter (fun x => decide (q ≤ x)) :=
            List.filter_cons_of_neg hnotq
          have hcons2 : (v :: s.i :: T2').filter (fun x => decide (q ≤ x)) =
              (v :: T2').filter (fun x => decide (q ≤ x)) := by
            by_cases hv : q ≤ v
            · have hv' : (fun x => decide (q ≤ x)) v = true := by simp [hv]
              rw [@List.filter_cons_of_pos _ (fun x => decide (q ≤ x)) v
                  (s.i :: T2') hv',
                @List.filter_cons_of_pos _ (fun x => decide (q ≤ x)) v T2' hv',
                @List.filter_cons_of_neg _ (fun x => decide (q ≤ x)) s.i T2'
                  hnotq]
            · have hv' : ¬ ((fun x => decide (q ≤ x)) v = true) := by simp [hv]
              rw [@List.filter_cons_of_neg _ (fun x => decide (q ≤ x)) v
                  (s.i :: T2') hv',
                @List.filter_cons_of_neg _ (fun x => decide (q ≤ x)) v T2' hv',
                @List.filter_cons_of_neg _ (fun x => decide (q ≤ x)) s.i T2'
                  hnotq]
          have hfe : (List.range' 1 (s.i - 1) ++
                (T1 ++ s.i :: v :: T2')).filter (fun x => decide (q ≤ x)) =
              (List.range' 1 (s.i - 1) ++
                (T1 ++ v :: s.i :: T2')).filter (fun x => decide (q ≤ x)) := by
            simp only [List.filter_append, hcons1, hcons2]
          show (s.loc.set s.i (s.loc.getD s.i 0 + 1)).getD q 0 = locOf _ q
          rw [getD_set_ne _ _ _ _ _ (fun he => hqi he.symm)]
          rw [hs.locc q hq1 hqn, hdec, hT2e, locOf, locOf, hfe]
    · show List.Pairwise (Rpo po)
        (window n (swapAdj s.p (s.loc.getD s.i 0) (s.loc.getD s.i 0 + 1)))
      rw [hwin2]
      have hord := hs.ord
      rw [hdec, hT2e] at hord
      have hord2 : List.Pairwise (Rpo po)
          ((List.range' 1 (s.i - 1) ++ T1) ++ s.i :: v :: T2') := by
        have h : List.range' 1 (s.i - 1) ++ (T1 ++ s.i :: v :: T2') =
            (List.range' 1 (s.i - 1) ++ T1) ++ s.i :: v :: T2' := by simp
        rw [← h]
        exact hord
      have hres := pairwise_swap_mid (List.range' 1 (s.i - 1) ++ T1) T2'
        s.i v hord2 hnotpo.1
      have h : List.range' 1 (s.i - 1) ++ (T1 ++ v :: s.i :: T2') =
          (List.range' 1 (s.i - 1) ++ T1) ++ v :: s.i :: T2' := by simp
      rw [h]
      exact hres
  refine ⟨_, _, hstep, hinv1, rfl, rfl, ?_, ?_, ?_, hik, hklt⟩
  · -- pot increases by exactly one
    show digitSum n (s.loc.set s.i (s.loc.getD s.i 0 + 1)) 1 + wgt n 1 =
      digitSum n s.loc s.i + wgt n s.i + 1
    have hz : ∀ j, 1 ≤ j → j < s.i →
        (s.loc.set s.i (s.loc.getD s.i 0 + 1)).getD j 0 = j := by
      intro j hj1 hj2
      rw [getD_set_ne _ _ _ _ _ (by omega)]
      exact loc_lt_eq n po s hs j hj1 hj2
    rw [digitSum_one_eq n _ s.i hi1 hin hz,
      digitSum_expand n _ s.i hlt,
      digitSum_set_lt n s.loc s.i _ (s.i + 1) (by omega),
      getD_set_self _ _ _ _ (by rw [hs.loclen]; omega),
      digitSum_expand n s.loc s.i hlt]
    have h1 : s.loc.getD s.i 0 + 1 - s.i = (s.loc.getD s.i 0 - s.i) + 1 := by
      omega
    rw [h1, wgt_one]
    ring
  · -- pot of the new state is Vof of the yield plus one
    show digitSum n (s.loc.set s.i (s.loc.getD s.i 0 + 1)) 1 + wgt n 1 =
      Vof n (window n (swapAdj s.p (s.loc.getD s.i 0) (s.loc.getD s.i 0 + 1)))
        + 1
    rw [wgt_one]
    congr 1
    exact digitSum_one_Vof n po _ hinv1
  · -- the yield is an adjacent swap of the current window
    show window n (swapAdj s.p (s.loc.getD s.i 0) (s.loc.getD s.i 0 + 1)) =
      swapW (window n s.p) (s.loc.getD s.i 0 - 1)
    have hwX : window n s.p = (List.range' 1 (s.i - 1) ++ T1) ++
        s.i :: v :: T2' := by
      rw [hdec, hT2e]
      simp
    have hsw := swapW_decomp (List.range' 1 (s.i - 1) ++ T1) T2' s.i v
      (window n s.p) hwX
    rw [hXlen] at hsw
    rw [hsw, hwin2]
    simp

/-! Termination measure and the main loop -/

theorem meas_lt_rotation (n : ℕ) (s s1 : VR) (hpot : pot n s ≤ pot n s1)
    (hle : pot n s1 ≤ wgt n n) (hi : s1.i = s.i + 1) (hsn : s.i < n) :
    meas n s1 < meas n s := by
  rw [meas, meas, hi]
  have h1 : wgt n n - pot n s1 ≤ wgt n n - pot n s := by omega
  have h2 := Nat.mul_le_mul_right (n+1) h1
  calc (wgt n n - pot n s1) * (n+1) + (n - (s.i + 1))
      < (wgt n n - pot n s1) * (n+1) + (n - s.i) :=
        Nat.add_lt_add_left (by omega) _
    _ ≤ (wgt n n - pot n s) * (n+1) + (n - s.i) :=
        Nat.add_le_add_right h2 _

theorem meas_lt_swap (n : ℕ) (s s1 : VR) (hpot : pot n s1 = pot n s + 1)
    (hle : pot n s1 ≤ wgt n n) (hi1 : s1.i = 1) (hsn : s.i < n) :
    meas n s1 < meas n s := by
  rw [meas, meas, hi1]
  have ha : wgt n n - pot n s = (wgt n n - pot n s1) + 1 := by omega
  rw [ha, Nat.succ_mul, Nat.add_assoc]
  exact Nat.add_lt_add_left (by omega) _

theorem pot_init (n : ℕ) (hn : 1 ≤ n) : pot n (initState n) = 1 := by
  rw [pot]
  show digitSum n (List.range (n+1)) 1 + wgt n 1 = 1
  rw [wgt_one]
  have h : digitSum n (List.range (n+1)) 1 = 0 := by
    rw [digitSum]
    apply List.sum_eq_zero
    intro x hx
    rcases List.mem_map.mp hx with ⟨j, hj, rfl⟩
    rw [List.mem_range'_1] at hj
    rw [getD_range (n+1) j 0 (by omega)]
    simp
  omega

theorem Vof_init (n : ℕ) : Vof n (List.range' 1 n) = 0 := by
  rw [Vof]
  apply List.sum_eq_zero
  intro x hx
  rcases List.mem_map.mp hx with ⟨j, hj, rfl⟩
  rw [List.mem_range'_1] at hj
  rw [locOf_range' n j hj.1 (by omega)]
  simp

/-- The main induction over the loop: from any invariant state with
enough fuel, the loop runs to completion (`i = n`), each yield is a valid
permutation, the mixed-radix rank `Vof` strictly increases along the
yields (hence no duplicates), and consecutive yields are related by
`StepRel`. -/
theorem vrRun_spec (n : ℕ) (po : List (ℕ × ℕ)) (m : Grid)
    (hg : GoodGrid n po m) (hpo : PairsOK n po) :
    ∀ (fuel : ℕ) (s : VR) (yprev : List ℕ), Inv n po s →
      meas n s < fuel →
      window n s.p = List.range' 1 (s.i - 1) ++
        yprev.filter (fun v => decide (s.i ≤ v)) →
      Vof n yprev < pot n s →
      ∃ ys sF, vrRun n m fuel s = (ys, sF, true) ∧ sF.i = n ∧ Inv n po sF ∧
        (∀ y ∈ ys, List.Perm y (List.range' 1 n)) ∧
        (∀ y ∈ ys, List.Pairwise (Rpo po) y) ∧
        (∀ y ∈ ys, Vof n yprev < Vof n y) ∧
        List.Pairwise (fun y1 y2 => Vof n y1 < Vof n y2) ys ∧
        List.Chain' (StepRel n) (yprev :: ys) := by
  intro fuel
  induction fuel with
  | zero =>
      intro s yprev hs hm hc hv
      exact absurd hm (Nat.not_lt_zero _)
  | succ fuel ih =>
      intro s yprev hs hm hc hv
      by_cases hlt : s.i < n
      · cases hcond : mLookup m s.i (s.p.getD (s.loc.getD s.i 0 + 1) 0) with
        | true =>
            obtain ⟨s1, hstep, hinv1, hi1, hpot, htransfer⟩ :=
              rotation_step n po m s hpo hs hlt hcond
            have hc1 : window n s1.p = List.range' 1 (s1.i - 1) ++
                yprev.filter (fun v => decide (s1.i ≤ v)) := by
              rw [hi1, Nat.add_sub_cancel]
              exact htransfer yprev hc
            have hmeas1 : meas n s1 < fuel := by
              have hlt1 := meas_lt_rotation n s s1 hpot
                (pot_le n po s1 hinv1) hi1 hlt
              omega
            have hv1 : Vof n yprev < pot n s1 := lt_of_lt_of_le hv hpot
            obtain ⟨ys, sF, hrun, hfin, hinvF, hperm, hord, hvlt, hpw, hch⟩ :=
              ih s1 yprev hinv1 hmeas1 hc1 hv1
            refine ⟨ys, sF, ?_, hfin, hinvF, hperm, hord, hvlt, hpw, hch⟩
            show vrRun n m (fuel+1) s = (ys, sF, true)
            simp only [vrRun, if_pos hlt, hstep, hrun]
        | false =>
            obtain ⟨s1, y0, hstep, hinv1, hi1, hy0, hpot, hvof, hswapw,
              hik, hkn⟩ := swap_step n po m s hg hpo hs hlt hcond
            have hy0f : y0.filter (fun v => decide (1 ≤ v)) = y0 := by
              apply filter_ge_of_all
              intro x hx
              rw [hy0] at hx
              have := hinv1.wperm.mem_iff.mp hx
              rw [List.mem_range'_1] at this
              omega
            have hc1 : window n s1.p = List.range' 1 (s1.i - 1) ++
                y0.filter (fun v => decide (s1.i ≤ v)) := by
              rw [hi1]
              simp only [Nat.sub_self, List.range'_zero, List.nil_append]
              rw [hy0f, hy0]
            have hmeas1 : meas n s1 < fuel := by
              have hlt1 := meas_lt_swap n s s1 hpot
                (pot_le n po s1 hinv1) hi1 hlt
              omega
            have hveq : Vof n y0 = pot n s := by omega
            have hv1 : Vof n y0 < pot n s1 := by omega
            obtain ⟨ys, sF, hrun, hfin, hinvF, hperm, hord, hvlt, hpw, hch⟩ :=
              ih s1 y0 hinv1 hmeas1 hc1 hv1
            have hsteprel : StepRel n yprev y0 := by
              refine ⟨s.i, s.loc.getD s.i 0, hs.ilb, hik, hkn, ?_⟩
              rw [hswapw, hc]
            refine ⟨y0 :: ys, sF, ?_, hfin, hinvF, ?_, ?_, ?_, ?_, ?_⟩
            · show vrRun n m (fuel+1) s = (y0 :: ys, sF, true)
              simp only [vrRun, if_pos hlt, hstep, hrun]
            · intro y hy
              rcases List.mem_cons.mp hy with rfl | hy'
              · rw [hy0]
                exact hinv1.wperm
              · exact hperm y hy'
            · intro y hy
              rcases List.mem_cons.mp hy with rfl | hy'
              · rw [hy0]
                exact hinv1.ord
              · exact hord y hy'
            · intro y hy
              rcases List.mem_cons.mp hy with rfl | hy'
              · omega
              · have := hvlt y hy'
                omega
            · rw [List.pairwise_cons]
              exact ⟨fun y hy => hvlt y hy, hpw⟩
            · rw [List.chain'_cons]
              exact ⟨hsteprel, hch⟩
      · refine ⟨[], s, ?_, ?_, hs, by simp, by simp, by simp, by simp, ?_⟩
        · show vrRun n m (fuel+1) s = ([], s, true)
          simp only [vrRun, if_neg hlt]
        · have := hs.iub
          omega
        · exact List.chain'_singleton yprev

/-! Master specification of `vr_topsort` on grids built by the builder -/

theorem vr_topsort_master (n : ℕ) (po : List (ℕ × ℕ)) (g : Grid)
    (hn : 1 ≤ n) (hpo : PairsOK n po)
    (hgrid : partial_order_to_grid po n = some g) :
    ∃ ys sF, vrRun n g (fuelFor n) (initState n) = (ys, sF, true) ∧
      sF.i = n ∧
      vr_topsort n g = List.range' 1 n :: ys ∧
      (∀ y ∈ ys, List.Perm y (List.range' 1 n)) ∧
      (∀ y ∈ ys, List.Pairwise (Rpo po) y) ∧
      (∀ y ∈ ys, 0 < Vof n y) ∧
      List.Pairwise (fun a b => Vof n a < Vof n b) ys ∧
      List.Chain' (StepRel n) (List.range' 1 n :: ys) := by
  have hgok : GridOK n po g := by
    obtain ⟨g', hsome, hok⟩ := partial_order_to_grid_ok n po hpo
    rw [hgrid] at hsome
    cases hsome
    exact hok
  have hgood : GoodGrid n po g := hgok.toGoodGrid
  have hinv0 := inv_init n po hn hpo
  have hwin0 := window_initState n
  have hc0 : window n (initState n).p = List.range' 1 ((initState n).i - 1) ++
      (List.range' 1 n).filter (fun v => decide ((initState n).i ≤ v)) := by
    rw [hwin0]
    show List.range' 1 n = List.range' 1 (1 - 1) ++
      (List.range' 1 n).filter (fun v => decide (1 ≤ v))
    rw [filter_ge_of_all (fun x hx => by rw [List.mem_range'_1] at hx; omega)]
    simp
  have hpot0 := pot_init n hn
  have hv0 : Vof n (List.range' 1 n) < pot n (initState n) := by
    rw [Vof_init, hpot0]
    omega
  have hmeas0 : meas n (initState n) < fuelFor n := by
    rw [meas, fuelFor]
    have h1 : (wgt n n - pot n (initState n)) * (n+1) ≤ wgt n n * (n+1) :=
      Nat.mul_le_mul_right _ (Nat.sub_le _ _)
    calc (wgt n n - pot n (initState n)) * (n+1) + (n - (initState n).i)
        ≤ wgt n n * (n+1) + (n - (initState n).i) :=
          Nat.add_le_add_right h1 _
      _ < wgt n n * (n+1) + (n+1) := Nat.add_lt_add_left (by omega) _
  obtain ⟨ys, sF, hrun, hfin, hinvF, hperm, hord, hvlt, hpw, hch⟩ :=
    vrRun_spec n po g hgood hpo (fuelFor n) (initState n)
      (List.range' 1 n) hinv0 hmeas0 hc0 hv0
  refine ⟨ys, sF, hrun, hfin, ?_, hperm, hord, ?_, hpw, hch⟩
  · rw [vr_topsort, hrun, hwin0]
  · intro y hy
    have := hvlt y hy
    rw [Vof_init] at this
    exact this

/-! The claims -/

/-- C1: for every `n ≥ 1` and every finite set of constraint pairs
`(i,j)` with `1 ≤ i < j ≤ n`, every list yielded by
`vr_topsort n (partial_order_to_grid pairs n)` is a valid linear
extension: for every constraint pair `(i,j)`, the position of value `i`
in the yielded list strictly precedes the position of value `j`. -/
theorem C1_validity (n : ℕ) (po : List (ℕ × ℕ)) (g : Grid)
    (hn : 1 ≤ n) (hpo : PairsOK n po)
    (hgrid : partial_order_to_grid po n = some g) :
    ∀ y ∈ vr_topsort n g, ∀ pr ∈ po, idx pr.1 y < idx pr.2 y := by
  obtain ⟨ys, sF, hrun, hfin, heq, hperm, hord, hvpos, hpw, hch⟩ :=
    vr_topsort_master n po g hn hpo hgrid
  intro y hy pr hpr
  obtain ⟨h1, h2, h3⟩ := hpo pr hpr
  rw [heq] at hy
  rcases List.mem_cons.mp hy with rfl | hy'
  · rw [idx_range' pr.1 1 n h1 (by omega), idx_range' pr.2 1 n (by omega)
      (by omega)]
    omega
  · have hP := hord y hy'
    have hy_perm := hperm y hy'
    have ha : pr.1 ∈ y := hy_perm.mem_iff.mpr
      (by rw [List.mem_range'_1]; omega)
    have hb : pr.2 ∈ y := hy_perm.mem_iff.mpr
      (by rw [List.mem_range'_1]; omega)
    exact pairwise_rpo_idx_lt po y pr.1 pr.2 hP (by simpa using hpr)
      (by omega) ha hb

/-- Witness for C1 at `n = 3`, `pairs = [(1,2)]`, yield `[1,3,2]`,
pair `(1,2)`. -/
theorem C1_validity_witness : idx 1 [1,3,2] < idx 2 [1,3,2] :=
  C1_validity 3 [(1,2)] [[false,false,false,false,true],
      [false,false,true,false,true],[false,true,false,false,true],
      [false,false,false,false,true],[false,false,false,false,true]]
    (by omega) (by unfold PairsOK; decide) (by decide)
    [1,3,2] (by decide) (1,2) (by decide)

/-- C2: for `n = 3` and no constraints, `vr_topsort` yields exactly 6
lists, pairwise distinct, which are exactly the 6 permutations of
`[1,2,3]`, the first being `[1,2,3]`. -/
theorem C2_antichain3 :
    partial_order_to_grid [] 3 =
      some (List.replicate 5 [false, false, false, false, true]) ∧
    vr_topsort 3 (List.replicate 5 [false, false, false, false, true]) =
      [[1,2,3],[2,1,3],[2,3,1],[1,3,2],[3,1,2],[3,2,1]] ∧
    (vr_topsort 3 (List.replicate 5 [false, false, false, false, true])).length
      = 6 ∧
    (vr_topsort 3 (List.replicate 5 [false, false, false, false, true])).Nodup ∧
    List.Perm (vr_topsort 3 (List.replicate 5 [false, false, false, false, true]))
      [[1,2,3],[1,3,2],[2,1,3],[2,3,1],[3,1,2],[3,2,1]] ∧
    (vr_topsort 3 (List.replicate 5 [false, false, false, false, true])).head?
      = some [1,2,3] := by
  decide

/-- C3: for every `n ≥ 1` and every grid built by the builder from
in-range pairs, every value yielded by `vr_topsort` is a permutation of
`[1..n]` (length `n`, each of `1..n` exactly once), and no two yields of
one run are equal. -/
theorem C3_permutation_nodup (n : ℕ) (po : List (ℕ × ℕ)) (g : Grid)
    (hn : 1 ≤ n) (hpo : PairsOK n po)
    (hgrid : partial_order_to_grid po n = some g) :
    (∀ y ∈ vr_topsort n g, y.length = n ∧ List.Perm y (List.range' 1 n)) ∧
    List.Pairwise (fun y1 y2 => y1 ≠ y2) (vr_topsort n g) := by
  obtain ⟨ys, sF, hrun, hfin, heq, hperm, hord, hvpos, hpw, hch⟩ :=
    vr_topsort_master n po g hn hpo hgrid
  constructor
  · intro y hy
    rw [heq] at hy
    rcases List.mem_cons.mp hy with rfl | hy'
    · exact ⟨List.length_range' 1 1 n, List.Perm.refl _⟩
    · have h := hperm y hy'
      exact ⟨by rw [h.length_eq]; exact List.length_range' 1 1 n, h⟩
  · rw [heq, List.pairwise_cons]
    constructor
    · intro y hy he
      have h0 := hvpos y hy
      rw [← he, Vof_init] at h0
      exact Nat.lt_irrefl 0 h0
    · exact hpw.imp (fun hab he => by rw [he] at hab; exact Nat.lt_irrefl _ hab)

/-- Witness for C3 at `n = 3`, `pairs = [(1,2)]`, yield `[3,1,2]`. -/
theorem C3_permutation_nodup_witness :
    ([3,1,2] : List ℕ).length = 3 ∧ List.Perm [3,1,2] (List.range' 1 3) :=
  (C3_permutation_nodup 3 [(1,2)] [[false,false,false,false,true],
      [false,false,true,false,true],[false,true,false,false,true],
      [false,false,false,false,true],[false,false,false,false,true]]
    (by omega) (by unfold PairsOK; decide) (by decide)).1
    [3,1,2] (by decide)

/-- C4: for every `n ≥ 1` and every grid built by the builder, the
enumeration terminates: the loop reaches a state with `i = n` within
`fuelFor n` iterations, so the sequence of yields is finite. -/
theorem C4_termination (n : ℕ) (po : List (ℕ × ℕ)) (g : Grid)
    (hn : 1 ≤ n) (hpo : PairsOK n po)
    (hgrid : partial_order_to_grid po n = some g) :
    vr_done n g = true ∧ (vr_final n g).i = n := by
  obtain ⟨ys, sF, hrun, hfin, heq, hperm, hord, hvpos, hpw, hch⟩ :=
    vr_topsort_master n po g hn hpo hgrid
  constructor
  · rw [vr_done, hrun]
  · rw [vr_final, hrun]
    exact hfin

/-- Witness for C4 at `n = 5`, `pairs = [(1,2),(2,3),(1,5)]` (the example
of the module's `__main__` block). -/
theorem C4_termination_witness :
    vr_done 5 [[false,false,false,false,false,false,true],
      [false,false,true,false,false,true,true],
      [false,true,false,true,false,false,true],
      [false,false,true,false,false,false,true],
      [false,false,false,false,false,false,true],
      [false,true,false,false,false,false,true],
      [false,false,false,false,false,false,true]] = true ∧
    (vr_final 5 [[false,false,false,false,false,false,true],
      [false,false,true,false,false,true,true],
      [false,true,false,true,false,false,true],
      [false,false,true,false,false,false,true],
      [false,false,false,false,false,false,true],
      [false,true,false,false,false,false,true],
      [false,false,false,false,false,false,true]]).i = 5 :=
  C4_termination 5 [(1,2),(2,3),(1,5)] _ (by omega) (by unfold PairsOK; decide) (by decide)

/-- C5: for every `n` and every grid (well-formed or not), the first
value yielded by `vr_topsort` is exactly `[1, 2, ..., n]`: the seed is
yielded before the loop performs any constraint lookup or mutation, so no
grid can influence it. -/
theorem C5_first_output (n : ℕ) (m : Grid) :
    (vr_topsort n m).head? = some (List.range' 1 n) := by
  rw [vr_topsort, List.head?_cons, window_initState]

/-- C6 counterexample: for `n = 4` with no constraints, the fifth yield
`[1,3,2,4]` differs from the fourth `[2,3,4,1]` in three positions, so
consecutive yields do not always differ by exactly one pairwise position
swap. -/
theorem C6_counterexample :
    partial_order_to_grid [] 4 =
      some (List.replicate 6 [false, false, false, false, false, true]) ∧
    (vr_topsort 4 (List.replicate 6
      [false, false, false, false, false, true])).getD 3 [] = [2,3,4,1] ∧
    (vr_topsort 4 (List.replicate 6
      [false, false, false, false, false, true])).getD 4 [] = [1,3,2,4] ∧
    isTransposedB [2,3,4,1] [1,3,2,4] = false := by
  decide

/-- C6 amended: every yielded permutation after the first is obtained
from its immediate predecessor `y` by, for some `1 ≤ i ≤ k < n`, moving
the values `1..i-1` to the front (keeping the relative order of the
values `≥ i`) and then swapping the entries at 0-based positions `k-1`
and `k`; when `i = 1` this is exactly one adjacent transposition, but in
general consecutive yields may differ in more than two positions. -/
theorem C6_amended (n : ℕ) (po : List (ℕ × ℕ)) (g : Grid)
    (hn : 1 ≤ n) (hpo : PairsOK n po)
    (hgrid : partial_order_to_grid po n = some g) :
    List.Chain' (StepRel n) (vr_topsort n g) := by
  obtain ⟨ys, sF, hrun, hfin, heq, hperm, hord, hvpos, hpw, hch⟩ :=
    vr_topsort_master n po g hn hpo hgrid
  rw [heq]
  exact hch

/-- Witness for the amended C6 at `n = 3`, no constraints. -/
theorem C6_amended_witness :
    List.Chain' (StepRel 3)
      (vr_topsort 3 (List.replicate 5 [false, false, false, false, true])) :=
  C6_amended 3 [] _ (by omega) (by unfold PairsOK; decide) (by decide)

/-- C7: for every `n ≥ 0` and in-range pairs, the builder returns a
matrix of `n+2` rows and `n+2` columns whose sentinel column `n+1` is all
`true`, and for `b ≤ n` the entry `(a, b)` is `true` iff `(a,b)` or
`(b,a)` occurs among the pairs (so all remaining entries are `false`). -/
theorem C7_grid_postcondition (n : ℕ) (po : List (ℕ × ℕ))
    (hpo : ∀ pr ∈ po, 1 ≤ pr.1 ∧ pr.1 < pr.2 ∧ pr.2 ≤ n) :
    ∃ g, partial_order_to_grid po n = some g ∧
      g.length = n + 2 ∧
      (∀ row ∈ g, row.length = n + 2) ∧
      (∀ a, a ≤ n + 1 → mLookup g a (n+1) = true) ∧
      (∀ a b, a ≤ n + 1 → b ≤ n →
        (mLookup g a b = true ↔ (a, b) ∈ po ∨ (b, a) ∈ po)) := by
  obtain ⟨g, hsome, hok⟩ := partial_order_to_grid_ok n po hpo
  exact ⟨g, hsome, hok.len, hok.rows, hok.sentinel, hok.content⟩

/-- Witness for C7 at `n = 2`, `pairs = [(1,2)]`: the returned grid has 4
rows, sentinel column 3 true at row 0, the two symmetric entries of the
pair true, and the diagonal entry `(1,1)` false. -/
theorem C7_grid_postcondition_witness :
    partial_order_to_grid [((1:ℕ),(2:ℕ))] 2 =
      some [[false,false,false,true],[false,false,true,true],
        [false,true,false,true],[false,false,false,true]] ∧
    mLookup [[false,false,false,true],[false,false,true,true],
        [false,true,false,true],[false,false,false,true]] 1 2 = true ∧
    mLookup [[false,false,false,true],[false,false,true,true],
        [false,true,false,true],[false,false,false,true]] 2 1 = true ∧
    mLookup [[false,false,false,true],[false,false,true,true],
        [false,true,false,true],[false,false,false,true]] 0 3 = true ∧
    mLookup [[false,false,false,true],[false,false,true,true],
        [false,true,false,true],[false,false,false,true]] 1 1 = false := by
  obtain ⟨g, hsome, hlen, hrows, hsent, hcontent⟩ :=
    C7_grid_postcondition 2 [(1,2)] (by decide)
  have hgeq : g = [[false,false,false,true],[false,false,true,true],
      [false,true,false,true],[false,false,false,true]] := by
    have hknown : partial_order_to_grid [((1:ℕ),(2:ℕ))] 2 =
        some [[false,false,false,true],[false,false,true,true],
          [false,true,false,true],[false,false,false,true]] := by decide
    rw [hsome] at hknown
    exact Option.some.inj hknown
  subst hgeq
  refine ⟨hsome, ?_, ?_, hsent 0 (by omega), ?_⟩
  · exact (hcontent 1 2 (by omega) (by omega)).mpr (Or.inl (by decide))
  · exact (hcontent 2 1 (by omega) (by omega)).mpr (Or.inr (by decide))
  · have h := hcontent 1 1 (by omega) (by omega)
    cases hval : mLookup [[false,false,false,true],[false,false,true,true],
        [false,true,false,true],[false,false,false,true]] 1 1 with
    | false => rfl
    | true =>
        exfalso
        rcases h.mp hval with hmem | hmem
        · exact absurd hmem (by decide)
        · exact absurd hmem (by decide)

/-- C8 counterexample: the claim "if every pair has `i < j`, construction
succeeds" fails: with `n = 0` the pair `(1,2)` satisfies `1 < 2` yet the
assignment `grid[1][2] = True` is out of range (Python `IndexError`), so
no grid is returned. -/
theorem C8_counterexample :
    (∀ pr ∈ [((1:ℕ),(2:ℕ))], pr.1 < pr.2) ∧
    partial_order_to_grid [(1,2)] 0 = none := by
  decide

/-- C8 amended: if some pair has `i ≥ j` the construction fails (the
`assert` raises, or an earlier out-of-range assignment raises first);
if every pair `(i,j)` has `i < j` and additionally `j ≤ n+1` (all indices
within the grid), the construction succeeds. -/
theorem C8_amended (n : ℕ) (po : List (ℕ × ℕ)) :
    ((∃ pr ∈ po, pr.2 ≤ pr.1) → partial_order_to_grid po n = none) ∧
    ((∀ pr ∈ po, pr.1 < pr.2 ∧ pr.2 ≤ n + 1) →
      ∃ g, partial_order_to_grid po n = some g) := by
  constructor
  · intro hbad
    exact build_none_of_bad po _ hbad
  · intro hok
    apply build_some_of_inrange n po _ (by simp) ?_ hok
    intro row hrow
    rcases List.eq_of_mem_replicate hrow with rfl
    simp

/-- Witness for the amended C8: `(2,1)` aborts construction; `(1,2)` with
`n = 1` succeeds. -/
theorem C8_amended_witness :
    partial_order_to_grid [((2:ℕ),(1:ℕ))] 1 = none ∧
    (partial_order_to_grid [((1:ℕ),(2:ℕ))] 1).isSome = true := by
  refine ⟨(C8_amended 1 [(2,1)]).1 (by decide), ?_⟩
  obtain ⟨g, hg⟩ := (C8_amended 1 [(1,2)]).2 (by decide)
  rw [hg]
  rfl

/-- C9: for `n = 0` with no constraint pairs, `vr_topsort` yields exactly
one value, the empty list, and terminates (the loop body is never entered
since `i = 1` is not `< 0`). -/
theorem C9_zero_elements :
    partial_order_to_grid [] 0 = some [[false, true], [false, true]] ∧
    vr_topsort 0 [[false, true], [false, true]] = [[]] ∧
    vr_done 0 [[false, true], [false, true]] = true := by
  decide

end Digraphtools
